import Mathlib

/-!
Verification of the AnnotationQueryPython utilities (`src/AQPython/Utilities.py`):
the property decoder `GetAQProperties`, the property encoder `GetCATProperties`,
and the text hydrator `HydrateText`, together with a model of the Python
standard-library helpers they use (`str.split`, slicing, `dict`,
`urllib.parse.quote_plus` / `unquote_plus`, `int`, `sorted`).

Python strings are modelled as Lean `String` (a list of unicode code points),
Python `int` as `Int`, Python `dict` (insertion ordered, unique keys) as an
association list `PyDict`, and Python exceptions as `Except String`.
-/

set_option maxHeartbeats 1000000

namespace AQ


/-- Concatenation of the images of `f`, i.e. Python's per-element flattening. -/
def listFlat (f : α → List β) : List α → List β
  | [] => []
  | a :: l => f a ++ listFlat f l

/-- Python `s.split(sep)` for a single-character separator, on the underlying
character list.  Always returns a non-empty list; adjacent separators and
leading/trailing separators produce empty fields, exactly like Python. -/
def pySplit (sep : Char) : List Char → List (List Char)
  | [] => [[]]
  | c :: rest =>
    if c = sep then [] :: pySplit sep rest
    else
      match pySplit sep rest with
      | [] => [[c]]
      | t :: ts => (c :: t) :: ts

/-- Separator-joining, Python `sep.join(parts)`. -/
def joinSep (sep : Char) : List (List Char) → List Char
  | [] => []
  | [t] => t
  | t :: ts => t ++ sep :: joinSep sep ts

/-- Python slice normalisation for `s[i:j]`: negative indices count from the
end and are clamped at 0; positive indices are clamped at the length. -/
def pySliceNorm (n : Nat) (k : Int) : Nat :=
  if k < 0 then ((n : Int) + k).toNat else min k.toNat n

/-- Python string slice `s[i:j]` on the character list. -/
def pySlice (l : List Char) (i j : Int) : List Char :=
  (l.take (pySliceNorm l.length j)).drop (pySliceNorm l.length i)

/-- Python `dict` lookup (`d[k]` / `k in d`). -/
def pyLookup (m : List (String × String)) (k : String) : Option String :=
  match m with
  | [] => none
  | (k', v) :: rest => if k' = k then some v else pyLookup rest k

/-- Python `dict` assignment `d[k] = v`: replaces the value in place if the key
is present, otherwise appends the pair at the end (insertion order). -/
def pyDictInsert (m : List (String × String)) (k v : String) : List (String × String) :=
  match m with
  | [] => [(k, v)]
  | (k', v') :: rest => if k' = k then (k, v) :: rest else (k', v') :: pyDictInsert rest k v

/-- A Python `dict` from `str` to `str`. -/
abbrev PyDict := List (String × String)

/-- Python `str.lower()` (this code only ever lowercases ASCII set names). -/
def pyLower (s : String) : String := ⟨s.data.map Char.toLower⟩

/-- Python `list(set(xs))` followed by a later canonical sort: dedicated
duplicate removal (keeps the last occurrence; the surrounding code sorts the
result, so only the underlying set matters, as in Python). -/
def pyDedup [DecidableEq α] : List α → List α
  | [] => []
  | a :: rest => if a ∈ rest then pyDedup rest else a :: pyDedup rest

/-- Lexicographic comparison used by `sort(key=lambda tup: (tup[0], tup[1]))`. -/
def lexLe (p q : Int × Int) : Prop := p.1 < q.1 ∨ (p.1 = q.1 ∧ p.2 ≤ q.2)

instance : DecidableRel lexLe := fun p q => by unfold lexLe; infer_instance

/-- Insert into a lex-sorted list of pairs. -/
def insSorted (p : Int × Int) : List (Int × Int) → List (Int × Int)
  | [] => [p]
  | q :: rest => if lexLe p q then p :: q :: rest else q :: insSorted p rest

/-- Python `sorted` by the identity pair key (as an insertion sort; the input
pairs are already deduplicated, so the lex order determines the result). -/
def pySort (l : List (Int × Int)) : List (Int × Int) :=
  l.foldr insSorted []

/-! ## Model of `urllib.parse.quote_plus` and `unquote_plus`

`quote_plus` keeps ASCII alphanumerics and `_.-~`, turns a space into `+`,
and percent-encodes every other character via its UTF-8 bytes in upper-case
hex.  `unquote_plus` first replaces `+` by a space, then percent-decodes:
maximal ASCII runs are unescaped at the byte level (`%XX`, either hex case;
malformed escapes pass through literally) and then UTF-8 decoded with
`errors=replace`; non-ASCII characters pass through unchanged. -/

/-- The characters `quote` never encodes (ASCII alphanumerics and `_.-~`). -/
def isAlwaysSafe (c : Char) : Bool :=
  c.isAlpha || c.isDigit || c == '_' || c == '.' || c == '-' || c == '~'

/-- Upper-case hex digit for a nibble, as a code point. -/
def hexDigitN (x : Nat) : Nat := if x < 10 then 48 + x else 55 + x

/-- Upper-case hex digit character. -/
def hexDigitU (x : Nat) : Char := Char.ofNat (hexDigitN x)

/-- `%XX` escape of one byte (upper-case, as `quote` produces). -/
def pctEncByte (b : Nat) : List Char := ['%', hexDigitU (b / 16), hexDigitU (b % 16)]

/-- UTF-8 encoding of one unicode scalar value, as a byte list. -/
def utf8EncodeChar (c : Char) : List Nat :=
  if c.toNat < 0x80 then [c.toNat]
  else if c.toNat < 0x800 then [0xC0 + c.toNat / 64, 0x80 + c.toNat % 64]
  else if c.toNat < 0x10000 then
    [0xE0 + c.toNat / 4096, 0x80 + (c.toNat / 64) % 64, 0x80 + c.toNat % 64]
  else
    [0xF0 + c.toNat / 0x40000, 0x80 + (c.toNat / 4096) % 64,
     0x80 + (c.toNat / 64) % 64, 0x80 + c.toNat % 64]

/-- Per-character piece of `quote_plus` output. -/
def quotePlusChar (c : Char) : List Char :=
  if isAlwaysSafe c then [c]
  else if c = ' ' then ['+']
  else listFlat pctEncByte (utf8EncodeChar c)

/-- `urllib.parse.quote_plus`. -/
def quotePlus (s : String) : String := ⟨listFlat quotePlusChar s.data⟩

/-- Value of one hex-digit byte (both cases), per `urllib`'s `_hextobyte`. -/
def hexVal (b : Nat) : Option Nat :=
  if 48 ≤ b ∧ b ≤ 57 then some (b - 48)
  else if 65 ≤ b ∧ b ≤ 70 then some (b - 55)
  else if 97 ≤ b ∧ b ≤ 102 then some (b - 87)
  else none

/-- Byte-level percent-unescaping, `urllib.parse.unquote_to_bytes`: a `%`
followed by two hex digits becomes that byte; any other `%` passes through. -/
def pctDecodeBytes (l : List Nat) : List Nat :=
  match l with
  | [] => []
  | b :: rest =>
    if b = 37 then
      match rest with
      | a :: c :: rest2 =>
        match hexVal a, hexVal c with
        | some x, some y => (16 * x + y) :: pctDecodeBytes rest2
        | _, _ => 37 :: pctDecodeBytes (a :: c :: rest2)
      | [a] => 37 :: pctDecodeBytes [a]
      | [] => 37 :: pctDecodeBytes []
    else b :: pctDecodeBytes rest
termination_by l.length
decreasing_by all_goals simp [List.length_cons] <;> omega

/-- U+FFFD, produced by `bytes.decode('utf-8', errors='replace')`. -/
def replChar : Char := Char.ofNat 0xFFFD

/-- UTF-8 decoding of a byte list with `errors='replace'` (CPython's decoder:
rejects overlong forms, surrogates and values above U+10FFFF; each maximal
invalid subpart yields one replacement character). -/
def utf8Decode : List Nat → List Char
  | [] => []
  | b :: rest =>
    if b < 0x80 then Char.ofNat b :: utf8Decode rest
    else if b < 0xC2 then replChar :: utf8Decode rest
    else if b < 0xE0 then
      match rest with
      | [] => [replChar]
      | b2 :: r2 =>
        if 0x80 ≤ b2 ∧ b2 < 0xC0 then
          Char.ofNat ((b - 0xC0) * 64 + (b2 - 0x80)) :: utf8Decode r2
        else replChar :: utf8Decode (b2 :: r2)
    else if b < 0xF0 then
      match rest with
      | [] => [replChar]
      | b2 :: r2 =>
        if (if b = 0xE0 then 0xA0 ≤ b2 ∧ b2 < 0xC0
            else if b = 0xED then 0x80 ≤ b2 ∧ b2 < 0xA0
            else 0x80 ≤ b2 ∧ b2 < 0xC0) then
          match r2 with
          | [] => [replChar]
          | b3 :: r3 =>
            if 0x80 ≤ b3 ∧ b3 < 0xC0 then
              Char.ofNat (((b - 0xE0) * 64 + (b2 - 0x80)) * 64 + (b3 - 0x80)) :: utf8Decode r3
            else replChar :: utf8Decode (b3 :: r3)
        else replChar :: utf8Decode (b2 :: r2)
    else if b < 0xF5 then
      match rest with
      | [] => [replChar]
      | b2 :: r2 =>
        if (if b = 0xF0 then 0x90 ≤ b2 ∧ b2 < 0xC0
            else if b = 0xF4 then 0x80 ≤ b2 ∧ b2 < 0x90
            else 0x80 ≤ b2 ∧ b2 < 0xC0) then
          match r2 with
          | [] => [replChar]
          | b3 :: r3 =>
            if 0x80 ≤ b3 ∧ b3 < 0xC0 then
              match r3 with
              | [] => [replChar]
              | b4 :: r4 =>
                if 0x80 ≤ b4 ∧ b4 < 0xC0 then
                  Char.ofNat ((((b - 0xF0) * 64 + (b2 - 0x80)) * 64 + (b3 - 0x80)) * 64 + (b4 - 0x80))
                    :: utf8Decode r4
                else replChar :: utf8Decode (b4 :: r4)
            else replChar :: utf8Decode (b3 :: r3)
        else replChar :: utf8Decode (b2 :: r2)
    else replChar :: utf8Decode rest

/-- ASCII range test, `[\x00-\x7f]`. -/
def charIsAscii (c : Char) : Bool := c.toNat < 128

/-- Maximal runs of characters grouped by ASCII-ness (the `_asciire` split
inside `urllib.parse.unquote`). -/
def asciiRuns : List Char → List (Bool × List Char)
  | [] => []
  | c :: rest =>
    match asciiRuns rest with
    | [] => [(charIsAscii c, [c])]
    | (b, run) :: more =>
      if charIsAscii c = b then (b, c :: run) :: more
      else (charIsAscii c, [c]) :: (b, run) :: more

/-- `urllib.parse.unquote` (UTF-8, `errors='replace'`): a string without `%`
is returned unchanged; otherwise ASCII runs are byte-unescaped and decoded,
non-ASCII runs pass through. -/
def unquoteStr (s : String) : String :=
  if '%' ∈ s.data then
    ⟨listFlat
      (fun br => if br.1 then utf8Decode (pctDecodeBytes (br.2.map Char.toNat)) else br.2)
      (asciiRuns s.data)⟩
  else s

/-- The `+`-to-space replacement performed first by `unquote_plus`. -/
def plusChar (c : Char) : Char := if c = '+' then ' ' else c

/-- `urllib.parse.unquote_plus`: `+` becomes a space, then `unquote`. -/
def unquotePlus (s : String) : String :=
  unquoteStr ⟨s.data.map plusChar⟩

/-! ## The repository functions (`src/AQPython/Utilities.py`) -/

instance {ε α : Type} [DecidableEq ε] [DecidableEq α] : DecidableEq (Except ε α) := fun a b =>
  match a, b with
  | .ok x, .ok y => if h : x = y then .isTrue (by rw [h]) else .isFalse (by simp [h])
  | .error e, .error f => if h : e = f then .isTrue (by rw [h]) else .isFalse (by simp [h])
  | .ok _, .error _ => .isFalse (by simp)
  | .error _, .ok _ => .isFalse (by simp)

/-- `_ORIG`, `_ORIG_ANNOT_ID`, `_PARENT_ID`: the `_OM_NON_ATTRIBUTE_PROPERTIES`. -/
def OM_NON_ATTR : List String := ["orig", "origAnnotID", "parentId"]

/-- Python `s.split(sep)` at the `String` level (single-character separator). -/
def pySplitStr (sep : Char) (s : String) : List String :=
  (pySplit sep s.data).map (fun l => ⟨l⟩)

/-- Decoder state while scanning `other` tokens: the properties map being
built and the attribute buffer (`propsMap` / `attrBuf` in `GetAQProperties`). -/
structure DecSt where
  propsMap : PyDict
  attrBuf : List String
deriving DecidableEq

/-- One iteration of the token loop in `GetAQProperties` (lines 44-60 of
`Utilities.py`): split the token on `=`; when it has exactly two parts,
either place the processed value in the map, route the raw token to the
attribute buffer, or drop it; all other tokens are ignored. -/
def decodeTokStep (set : String) (props lcProps decodeProps : List String)
    (st : DecSt) (otherTok : String) : DecSt :=
  match pySplitStr '=' otherTok with
  | [key, value] =>
    if key ∈ props ∨ "*" ∈ props then
      let v1 := if key ∈ decodeProps ∨ "*" ∈ decodeProps then unquotePlus value else value
      let v2 := if key ∈ lcProps ∨ "*" ∈ lcProps then pyLower v1 else v1
      if "*" ∈ props ∧ pyLower set = "om" ∧ key ∉ OM_NON_ATTR then
        { st with attrBuf := st.attrBuf ++ [otherTok] }
      else
        { st with propsMap := pyDictInsert st.propsMap key v2 }
    else if "attr" ∈ props ∧ pyLower set = "om" then
      if key ∉ OM_NON_ATTR then { st with attrBuf := st.attrBuf ++ [otherTok] } else st
    else st
  | _ => st

/-- Final step of `GetAQProperties` (lines 61-62): flush the attribute buffer
into `propsMap['attr']` when it is non-empty and `attr` is still unset. -/
def decodeFinish (st : DecSt) : PyDict :=
  if st.attrBuf.length > 0 ∧ (pyLookup st.propsMap "attr") = none then
    pyDictInsert st.propsMap "attr" ⟨joinSep '&' (st.attrBuf.map String.data)⟩
  else st.propsMap

/-- `GetAQProperties(set, other, props, lcProps, decodeProps)`
(`Utilities.py` lines 39-63). -/
def GetAQProperties (set other : String) (props lcProps decodeProps : List String) : PyDict :=
  if props.length > 0 then
    decodeFinish ((pySplitStr '&' other).foldl (decodeTokStep set props lcProps decodeProps) ⟨[], []⟩)
  else []

/-- Classification of a single token: `some (key, value)` exactly when
`decodeTokStep` places `value` under `key` directly in the map (as opposed to
ignoring the token or routing it to the attribute buffer). -/
def placesDirectly (set : String) (props lcProps decodeProps : List String)
    (otherTok : String) : Option (String × String) :=
  match pySplitStr '=' otherTok with
  | [key, value] =>
    if key ∈ props ∨ "*" ∈ props then
      let v1 := if key ∈ decodeProps ∨ "*" ∈ decodeProps then unquotePlus value else value
      let v2 := if key ∈ lcProps ∨ "*" ∈ lcProps then pyLower v1 else v1
      if "*" ∈ props ∧ pyLower set = "om" ∧ key ∉ OM_NON_ATTR then none
      else some (key, v2)
    else none
  | _ => none

/-- `GetCATProperties(properties, props, encodeProps)`
(`Utilities.py` lines 93-104): serialize the qualifying entries of the
mapping, in insertion order, as `key=value` pairs joined with `&`;
a `None` mapping yields `None`. -/
def encTok (props encodeProps : List String) (kv : String × String) : Option (List Char) :=
  if "*" ∈ props ∨ kv.1 ∈ props then
    some (kv.1.data ++ '=' ::
      (if "*" ∈ encodeProps ∨ kv.1 ∈ encodeProps then (quotePlus kv.2).data else kv.2.data))
  else none

def GetCATProperties (properties : Option PyDict) (props encodeProps : List String) :
    Option String :=
  match properties with
  | none => none
  | some m => some ⟨joinSep '&' (m.filterMap (encTok props encodeProps))⟩

/-! ### The hydrator -/

/-- Python `int(s)`: optional surrounding whitespace, optional sign, then
decimal digits optionally grouped by single underscores; anything else is a
`ValueError` (`none` here). -/
def pyDigitsAux (acc : Nat) : List Char → Option Nat
  | [] => some acc
  | '_' :: c :: rest =>
    if c.isDigit then pyDigitsAux (acc * 10 + (c.toNat - 48)) rest else none
  | c :: rest =>
    if c.isDigit then pyDigitsAux (acc * 10 + (c.toNat - 48)) rest else none

/-- Digit run with optional single-underscore separators, first char a digit. -/
def pyDigits : List Char → Option Nat
  | [] => none
  | c :: rest => if c.isDigit then pyDigitsAux (c.toNat - 48) rest else none

/-- Python `int(str)` (`ValueError` as `none`). -/
def pyInt (s : String) : Option Int :=
  let l := (s.data.dropWhile Char.isWhitespace).reverse.dropWhile Char.isWhitespace |>.reverse
  match l with
  | '+' :: rest => (pyDigits rest).map (fun n => (n : Int))
  | '-' :: rest => (pyDigits rest).map (fun n => -(n : Int))
  | rest => (pyDigits rest).map (fun n => (n : Int))

/-- One `excludesEntry` (`Utilities.py` lines 158-159):
`(int(toks[0]), toks[1], toks[2], int(toks[3]), int(toks[4]))`.
A missing field raises `IndexError`; a bad integer raises `ValueError`. -/
def parseEntry (entry : String) : Except String (Int × String × String × Int × Int) := do
  let toks := pySplitStr ',' entry
  let f0 ← match toks.get? 0 with
    | some s => match pyInt s with | some n => pure n | none => throw "ValueError"
    | none => throw "IndexError"
  let f1 ← match toks.get? 1 with | some s => pure s | none => throw "IndexError"
  let f2 ← match toks.get? 2 with | some s => pure s | none => throw "IndexError"
  let f3 ← match toks.get? 3 with
    | some s => match pyInt s with | some n => pure n | none => throw "ValueError"
    | none => throw "IndexError"
  let f4 ← match toks.get? 4 with
    | some s => match pyInt s with | some n => pure n | none => throw "ValueError"
    | none => throw "IndexError"
  pure (f0, f1, f2, f3, f4)

/-- The exclusion-list parse loop (`Utilities.py` lines 157-159):
pipe-separated entries, each parsed by `parseEntry`; the first bad entry
raises. -/
def parseExcludes (exStr : String) :
    Except String (List (Int × String × String × Int × Int)) :=
  (pySplitStr '|' exStr).mapM parseEntry

/-- Lines 160-164: deduplicate the 5-tuples, project to the
`(excludeStart, excludeEnd)` pairs, deduplicate again, and sort ascending by
`(start, end)`. -/
def processPairs (entries : List (Int × String × String × Int × Int)) : List (Int × Int) :=
  pySort (pyDedup ((pyDedup entries).map (fun e => (e.2.2.2.1, e.2.2.2.2))))

/-- One iteration of the exclusion sweep (`Utilities.py` lines 166-171), on
the state `(text, curOffset)`: an exclusion starting at or before the cursor
just moves the cursor to its end; otherwise the gap slice is appended first. -/
def sweepStep (doc : List Char) (st : List Char × Int) (p : Int × Int) : List Char × Int :=
  if p.1 ≤ st.2 then (st.1, p.2)
  else (st.1 ++ pySlice doc st.2 p.1, p.2)

/-- The whole sweep including the tail slice (`Utilities.py` lines 165-173). -/
def sweepText (doc : List Char) (startOffset endOffset : Int) (pairs : List (Int × Int)) :
    List Char :=
  let st := pairs.foldl (sweepStep doc) ([], startOffset)
  if st.2 < endOffset then st.1 ++ pySlice doc st.2 endOffset else st.1

/-- Modelled from the spec: "output text equals the concatenation of the gaps
between them, in order" — the gap slice before each exclusion, cursor moved
to the exclusion's end, and the final tail slice up to `endOffset`. -/
def specGapConcat (doc : List Char) (endOffset : Int) : Int → List (Int × Int) → List Char
  | c, [] => pySlice doc c endOffset
  | c, (s, e) :: rest => pySlice doc c s ++ specGapConcat doc endOffset e rest

/-- The pure core of `HydrateText` (`Utilities.py` lines 150-183), taking the
already-resolved document text: short-circuit on empty text or an existing
`text` property, otherwise extract the span (with the exclusion sweep when
requested and present) and store it under `text`. -/
def hasKey (properties : Option PyDict) (k : String) : Bool :=
  match properties with
  | some m => (pyLookup m k).isSome
  | none => false

def HydrateTextCore (docText : String) (startOffset endOffset : Int)
    (properties : Option PyDict) (excludes : Bool) : Except String (Option PyDict) :=
  if docText = "" ∨ hasKey properties "text" then
    .ok properties
  else do
    let text ←
      match properties, excludes with
      | some m, true =>
        match pyLookup m "excludes" with
        | some exStr =>
          if exStr.length > 0 then do
            let entries ← parseExcludes exStr
            pure ⟨sweepText docText.data startOffset endOffset (processPairs entries)⟩
          else pure ⟨pySlice docText.data startOffset endOffset⟩
        | none => pure ⟨pySlice docText.data startOffset endOffset⟩
      | _, _ => pure ⟨pySlice docText.data startOffset endOffset⟩
    pure (some (pyDictInsert ((properties).getD []) "text" text))

/-- Outcome of the file-system interactions of one `HydrateText` call
(`Utilities.py` lines 136-148): whether `/tmp/docId` exists, and the results
of reading it, reading `txtPath + docId`, and writing the cache copy. -/
structure FSView where
  cacheExists : Bool
  cacheRead : Except String String
  srcRead : Except String String
  cacheWrite : Except String Unit

/-- Document-text resolution (`Utilities.py` lines 136-148): a cached copy is
read without protection, while the source read and cache write sit inside
`try`/`except`, which degrades any failure to the empty string. -/
def resolveDocText (fs : FSView) : Except String String :=
  if fs.cacheExists then fs.cacheRead
  else
    match (do let t ← fs.srcRead; let _ ← fs.cacheWrite; pure t : Except String String) with
    | .ok t => .ok t
    | .error _ => .ok ""

/-- `HydrateText` including the file-system step. -/
def HydrateTextFS (fs : FSView) (startOffset endOffset : Int)
    (properties : Option PyDict) (excludes : Bool) : Except String (Option PyDict) := do
  let docText ← resolveDocText fs
  HydrateTextCore docText startOffset endOffset properties excludes

/-- `quote_plus` output piece after the `+`-to-space replacement of
`unquote_plus`. -/
def qpPiece (c : Char) : List Char :=
  if isAlwaysSafe c then [c]
  else if c = ' ' then [' ']
  else listFlat pctEncByte (utf8EncodeChar c)

/-- Hypothesis package for the round trip: qualifying keys are metacharacter
free, and each qualifying value is either percent-encoded or itself
metacharacter free. -/
def rtSafe (P E : List String) (p : PyDict) : Prop :=
  ∀ kv ∈ p, ("*" ∈ P ∨ kv.1 ∈ P) →
    ('&' ∉ kv.1.data ∧ '=' ∉ kv.1.data) ∧
    (("*" ∈ E ∨ kv.1 ∈ E) ∨ ('&' ∉ kv.2.data ∧ '=' ∉ kv.2.data))

/-- Interval coverage: every point of `[a, b)` lies in some exclusion pair. -/
def coversInt (pairs : List (Int × Int)) (a b : Int) : Prop :=
  ∀ x : Int, a ≤ x → x < b → ∃ p ∈ pairs, p.1 ≤ x ∧ x < p.2

/-! ## Theorems -/

@[simp] theorem listFlat_nil (f : α → List β) : listFlat f [] = [] := rfl

@[simp] theorem listFlat_cons (f : α → List β) (a : α) (l : List α) :
    listFlat f (a :: l) = f a ++ listFlat f l := rfl

theorem listFlat_append (f : α → List β) (l₁ l₂ : List α) :
    listFlat f (l₁ ++ l₂) = listFlat f l₁ ++ listFlat f l₂ := by
  induction l₁ with
  | nil => rfl
  | cons a l ih => simp [ih]

theorem map_listFlat (f : α → List β) (g : β → γ) (l : List α) :
    (listFlat f l).map g = listFlat (fun a => (f a).map g) l := by
  induction l with
  | nil => rfl
  | cons a l ih => simp [ih]

theorem listFlat_congr {f g : α → List β} {l : List α} (h : ∀ a ∈ l, f a = g a) :
    listFlat f l = listFlat g l := by
  induction l with
  | nil => rfl
  | cons a l ih =>
    rw [listFlat_cons, listFlat_cons, h a (List.mem_cons_self a l),
      ih (fun x hx => h x (List.mem_cons_of_mem a hx))]

@[simp] theorem pySplit_nil (sep : Char) : pySplit sep [] = [[]] := rfl

theorem pySplit_ne_nil (sep : Char) (l : List Char) : pySplit sep l ≠ [] := by
  induction l with
  | nil => simp [pySplit]
  | cons c rest ih =>
    unfold pySplit
    by_cases h : c = sep
    · simp [h]
    · simp only [if_neg h]
      match hs : pySplit sep rest with
      | [] => simp
      | t :: ts => simp

@[simp] theorem joinSep_nil (sep : Char) : joinSep sep [] = [] := rfl

@[simp] theorem joinSep_single (sep : Char) (t : List Char) : joinSep sep [t] = t := rfl

theorem joinSep_cons (sep : Char) (t : List Char) (ts : List (List Char)) (h : ts ≠ []) :
    joinSep sep (t :: ts) = t ++ sep :: joinSep sep ts := by
  match ts with
  | [] => exact absurd rfl h
  | u :: us => rfl

/-- Splitting a sep-free token off the front of a joined list. -/
theorem pySplit_first_token (sep : Char) (t : List Char) (rest : List Char)
    (ht : sep ∉ t) :
    pySplit sep (t ++ sep :: rest) = t :: pySplit sep rest := by
  induction t with
  | nil => simp [pySplit]
  | cons c t ih =>
    have hc : c ≠ sep := fun h => ht (h ▸ List.mem_cons_self c t)
    have ht' : sep ∉ t := fun h => ht (List.mem_cons_of_mem c h)
    simp only [List.cons_append, pySplit, if_neg hc, List.append_eq]
    rw [ih ht']

/-- A token without the separator splits to itself. -/
theorem pySplit_of_not_mem (sep : Char) (t : List Char) (ht : sep ∉ t) :
    pySplit sep t = [t] := by
  induction t with
  | nil => rfl
  | cons c t ih =>
    have hc : c ≠ sep := fun h => ht (h ▸ List.mem_cons_self c t)
    have ht' : sep ∉ t := fun h => ht (List.mem_cons_of_mem c h)
    simp only [pySplit, if_neg hc, ih ht']

/-- Round trip: splitting a join of separator-free tokens recovers the tokens. -/
theorem pySplit_joinSep (sep : Char) (ts : List (List Char)) (hne : ts ≠ [])
    (hfree : ∀ t ∈ ts, sep ∉ t) :
    pySplit sep (joinSep sep ts) = ts := by
  induction ts with
  | nil => exact absurd rfl hne
  | cons t ts ih =>
    match ts with
    | [] =>
      simp only [joinSep_single]
      exact pySplit_of_not_mem sep t (hfree t (List.mem_cons_self t []))
    | u :: us =>
      rw [joinSep_cons sep t (u :: us) (by simp)]
      rw [pySplit_first_token sep t _ (hfree t (List.mem_cons_self t _))]
      rw [ih (by simp) (fun v hv => hfree v (List.mem_cons_of_mem t hv))]

/-- Splitting a two-field token `a=b` (single separator occurrence). -/
theorem pySplit_pair (sep : Char) (a b : List Char) (ha : sep ∉ a) (hb : sep ∉ b) :
    pySplit sep (a ++ sep :: b) = [a, b] := by
  rw [pySplit_first_token sep a b ha, pySplit_of_not_mem sep b hb]

theorem pySliceNorm_mono_nonneg (n : Nat) {i j : Int} (hj : 0 ≤ j) (h : j ≤ i) :
    pySliceNorm n j ≤ pySliceNorm n i := by
  unfold pySliceNorm
  rw [if_neg (by omega), if_neg (by omega)]
  exact min_le_min (by omega) le_rfl

/-- A backwards (or empty) slice of nonnegative indices is empty —
`s[i:j] = ''` when `0 ≤ j ≤ i`. -/
theorem pySlice_empty (l : List Char) {i j : Int} (hj : 0 ≤ j) (h : j ≤ i) :
    pySlice l i j = [] := by
  unfold pySlice
  apply List.drop_eq_nil_of_le
  calc (l.take (pySliceNorm l.length j)).length ≤ pySliceNorm l.length j := by
        simp [List.length_take]
    _ ≤ pySliceNorm l.length i := pySliceNorm_mono_nonneg l.length hj h

@[simp] theorem pyLookup_nil (k : String) : pyLookup [] k = none := rfl

theorem pyLookup_pyDictInsert_self (m : PyDict) (k v : String) :
    pyLookup (pyDictInsert m k v) k = some v := by
  induction m with
  | nil => simp [pyDictInsert, pyLookup]
  | cons kv rest ih =>
    obtain ⟨k', v'⟩ := kv
    by_cases h : k' = k
    · simp [pyDictInsert, pyLookup, h]
    · simp [pyDictInsert, pyLookup, h, ih]

theorem pyLookup_pyDictInsert_ne (m : PyDict) (k k' v : String) (h : k' ≠ k) :
    pyLookup (pyDictInsert m k' v) k = pyLookup m k := by
  induction m with
  | nil => simp [pyDictInsert, pyLookup, h]
  | cons kv rest ih =>
    obtain ⟨k₀, v₀⟩ := kv
    by_cases h0 : k₀ = k'
    · simp [pyDictInsert, pyLookup, h0, h]
    · simp only [pyDictInsert, if_neg h0, pyLookup]
      by_cases h1 : k₀ = k <;> simp [h1, ih]

theorem pyDictInsert_of_lookup_none (m : PyDict) (k v : String)
    (h : pyLookup m k = none) : pyDictInsert m k v = m ++ [(k, v)] := by
  induction m with
  | nil => rfl
  | cons kv rest ih =>
    obtain ⟨k', v'⟩ := kv
    by_cases hk : k' = k
    · simp [pyLookup, hk] at h
    · simp only [pyLookup, if_neg hk] at h
      simp [pyDictInsert, hk, ih h]

theorem pyDedup_of_nodup [DecidableEq α] (l : List α) (h : l.Nodup) :
    pyDedup l = l := by
  induction l with
  | nil => rfl
  | cons a rest ih =>
    have ha : a ∉ rest := (List.nodup_cons.mp h).1
    simp [pyDedup, ha, ih (List.nodup_cons.mp h).2]

theorem lexLe_total (p q : Int × Int) : lexLe p q ∨ lexLe q p := by
  unfold lexLe; omega

theorem mem_insSorted (p a : Int × Int) (l : List (Int × Int)) :
    a ∈ insSorted p l ↔ a = p ∨ a ∈ l := by
  induction l with
  | nil => simp [insSorted]
  | cons q rest ih =>
    unfold insSorted
    by_cases h : lexLe p q
    · rw [if_pos h]
      simp only [List.mem_cons]
    · rw [if_neg h]
      simp only [List.mem_cons, ih]
      tauto

theorem pairwise_insSorted (p : Int × Int) (l : List (Int × Int))
    (h : l.Pairwise lexLe) : (insSorted p l).Pairwise lexLe := by
  induction l with
  | nil => simp [insSorted]
  | cons q rest ih =>
    unfold insSorted
    by_cases hle : lexLe p q
    · rw [if_pos hle]
      refine List.pairwise_cons.mpr ⟨?_, h⟩
      intro a ha
      rcases List.mem_cons.mp ha with h1 | h1
      · exact h1 ▸ hle
      · have hq := (List.pairwise_cons.mp h).1 a h1
        unfold lexLe at *
        omega
    · have hq : lexLe q p := (lexLe_total p q).resolve_left hle
      rw [if_neg hle]
      refine List.pairwise_cons.mpr ⟨?_, ih (List.pairwise_cons.mp h).2⟩
      intro a ha
      rcases (mem_insSorted p a rest).mp ha with h1 | h1
      · exact h1 ▸ hq
      · exact (List.pairwise_cons.mp h).1 a h1

theorem pySort_pairwise (l : List (Int × Int)) : (pySort l).Pairwise lexLe := by
  induction l with
  | nil => simp [pySort]
  | cons p rest ih => exact pairwise_insSorted p _ ih

theorem pySort_of_sorted (l : List (Int × Int)) (h : l.Pairwise lexLe) :
    pySort l = l := by
  induction l with
  | nil => rfl
  | cons p rest ih =>
    have hrest := (List.pairwise_cons.mp h).2
    show insSorted p (pySort rest) = p :: rest
    rw [ih hrest]
    match rest, h with
    | [], _ => rfl
    | q :: rest', h =>
      have : lexLe p q := (List.pairwise_cons.mp h).1 q (List.mem_cons_self q rest')
      simp [insSorted, this]

/-! ## Round trip of the `quote_plus` / `unquote_plus` model -/

theorem utf8Decode_one {n : Nat} (h : n < 128) (rest : List Nat) :
    utf8Decode (n :: rest) = Char.ofNat n :: utf8Decode rest := by
  rw [utf8Decode.eq_def]
  simp [h]

theorem utf8Decode_two {n : Nat} (h1 : 128 ≤ n) (h2 : n < 2048) (rest : List Nat) :
    utf8Decode ((192 + n / 64) :: (128 + n % 64) :: rest) = Char.ofNat n :: utf8Decode rest := by
  have e1 : ¬ (192 + n / 64 < 128) := by omega
  have e2 : ¬ (192 + n / 64 < 194) := by omega
  have e3 : (192 + n / 64 < 224) := by omega
  have e4 : 128 ≤ 128 + n % 64 ∧ 128 + n % 64 < 192 := by omega
  rw [utf8Decode.eq_def]
  simp only [if_neg e1, if_neg e2, if_pos e3, if_pos e4]
  have hn : (192 + n / 64 - 192) * 64 + (128 + n % 64 - 128) = n := by omega
  rw [hn]

theorem utf8Decode_three {n : Nat}
    (hval : n < 55296 ∨ (57343 < n ∧ n < 65536)) (h1 : 2048 ≤ n) (rest : List Nat) :
    utf8Decode ((224 + n / 4096) :: (128 + (n / 64) % 64) :: (128 + n % 64) :: rest)
      = Char.ofNat n :: utf8Decode rest := by
  have e1 : ¬ (224 + n / 4096 < 128) := by omega
  have e2 : ¬ (224 + n / 4096 < 194) := by omega
  have e3 : ¬ (224 + n / 4096 < 224) := by omega
  have e4 : (224 + n / 4096 < 240) := by omega
  have e6 : 128 ≤ 128 + n % 64 ∧ 128 + n % 64 < 192 := by omega
  have eval2 : (if 224 + n / 4096 = 224 then
        160 ≤ 128 + (n / 64) % 64 ∧ 128 + (n / 64) % 64 < 192
      else if 224 + n / 4096 = 237 then
        128 ≤ 128 + (n / 64) % 64 ∧ 128 + (n / 64) % 64 < 160
      else 128 ≤ 128 + (n / 64) % 64 ∧ 128 + (n / 64) % 64 < 192) := by
    by_cases hb0 : 224 + n / 4096 = 224
    · rw [if_pos hb0]; omega
    · rw [if_neg hb0]
      by_cases hb13 : 224 + n / 4096 = 237
      · rw [if_pos hb13]; omega
      · rw [if_neg hb13]; omega
  rw [utf8Decode.eq_def]
  simp only [if_neg e1, if_neg e2, if_neg e3, if_pos e4, if_pos eval2, if_pos e6]
  have hn : ((224 + n / 4096 - 224) * 64 + (128 + (n / 64) % 64 - 128)) * 64
      + (128 + n % 64 - 128) = n := by omega
  rw [hn]

theorem utf8Decode_four {n : Nat} (h1 : 65536 ≤ n) (h2 : n < 1114112) (rest : List Nat) :
    utf8Decode ((240 + n / 262144) :: (128 + (n / 4096) % 64) :: (128 + (n / 64) % 64)
        :: (128 + n % 64) :: rest)
      = Char.ofNat n :: utf8Decode rest := by
  have e1 : ¬ (240 + n / 262144 < 128) := by omega
  have e2 : ¬ (240 + n / 262144 < 194) := by omega
  have e3 : ¬ (240 + n / 262144 < 224) := by omega
  have e4 : ¬ (240 + n / 262144 < 240) := by omega
  have e5 : (240 + n / 262144 < 245) := by omega
  have e7 : 128 ≤ 128 + (n / 64) % 64 ∧ 128 + (n / 64) % 64 < 192 := by omega
  have e8 : 128 ≤ 128 + n % 64 ∧ 128 + n % 64 < 192 := by omega
  have eval2 : (if 240 + n / 262144 = 240 then
        144 ≤ 128 + (n / 4096) % 64 ∧ 128 + (n / 4096) % 64 < 192
      else if 240 + n / 262144 = 244 then
        128 ≤ 128 + (n / 4096) % 64 ∧ 128 + (n / 4096) % 64 < 144
      else 128 ≤ 128 + (n / 4096) % 64 ∧ 128 + (n / 4096) % 64 < 192) := by
    by_cases hb0 : 240 + n / 262144 = 240
    · rw [if_pos hb0]; omega
    · rw [if_neg hb0]
      by_cases hb4 : 240 + n / 262144 = 244
      · rw [if_pos hb4]; omega
      · rw [if_neg hb4]; omega
  rw [utf8Decode.eq_def]
  simp only [if_neg e1, if_neg e2, if_neg e3, if_neg e4, if_pos e5, if_pos eval2,
    if_pos e7, if_pos e8]
  have hn : (((240 + n / 262144 - 240) * 64 + (128 + (n / 4096) % 64 - 128)) * 64
      + (128 + (n / 64) % 64 - 128)) * 64 + (128 + n % 64 - 128) = n := by omega
  rw [hn]

theorem utf8Decode_encodeChar (c : Char) (rest : List Nat) :
    utf8Decode (utf8EncodeChar c ++ rest) = c :: utf8Decode rest := by
  have hval : c.toNat < 55296 ∨ (57343 < c.toNat ∧ c.toNat < 1114112) := c.valid
  unfold utf8EncodeChar
  by_cases h1 : c.toNat < 128
  · rw [if_pos h1]
    simp only [List.cons_append, List.nil_append]
    rw [utf8Decode_one h1, Char.ofNat_toNat]
  · rw [if_neg h1]
    by_cases h2 : c.toNat < 2048
    · rw [if_pos h2]
      simp only [List.cons_append, List.nil_append]
      rw [utf8Decode_two (by omega) h2, Char.ofNat_toNat]
    · rw [if_neg h2]
      by_cases h3 : c.toNat < 65536
      · rw [if_pos h3]
        simp only [List.cons_append, List.nil_append]
        rw [utf8Decode_three (by omega) (by omega), Char.ofNat_toNat]
      · rw [if_neg h3]
        simp only [List.cons_append, List.nil_append]
        rw [utf8Decode_four (by omega) (by omega), Char.ofNat_toNat]

theorem utf8Decode_listFlat (l : List Char) :
    utf8Decode (listFlat utf8EncodeChar l) = l := by
  induction l with
  | nil => rfl
  | cons c l ih =>
    rw [listFlat_cons, utf8Decode_encodeChar, ih]

theorem utf8EncodeChar_lt256 (c : Char) : ∀ b ∈ utf8EncodeChar c, b < 256 := by
  have hval : c.toNat < 55296 ∨ (57343 < c.toNat ∧ c.toNat < 1114112) := c.valid
  unfold utf8EncodeChar
  intro b hb
  by_cases h1 : c.toNat < 128
  · rw [if_pos h1] at hb
    simp at hb
    omega
  · rw [if_neg h1] at hb
    by_cases h2 : c.toNat < 2048
    · rw [if_pos h2] at hb
      simp at hb
      rcases hb with h | h <;> omega
    · rw [if_neg h2] at hb
      by_cases h3 : c.toNat < 65536
      · rw [if_pos h3] at hb
        simp at hb
        rcases hb with h | h | h <;> omega
      · rw [if_neg h3] at hb
        simp at hb
        rcases hb with h | h | h | h <;> omega

theorem utf8EncodeChar_ne_nil (c : Char) : utf8EncodeChar c ≠ [] := by
  unfold utf8EncodeChar
  split
  · simp
  · split
    · simp
    · split <;> simp

theorem hexVal_hexDigitU : ∀ x < 16, hexVal ((hexDigitU x).toNat) = some x := by decide

theorem pctDecodeBytes_cons_ne {b : Nat} (hb : b ≠ 37) (rest : List Nat) :
    pctDecodeBytes (b :: rest) = b :: pctDecodeBytes rest := by
  rw [pctDecodeBytes.eq_def]
  simp [hb]

theorem pct_toNat : ('%').toNat = 37 := rfl

theorem pctDecodeBytes_escape {b : Nat} (hb : b < 256) (rest : List Nat) :
    pctDecodeBytes ((pctEncByte b).map Char.toNat ++ rest) = b :: pctDecodeBytes rest := by
  have h1 : hexVal ((hexDigitU (b / 16)).toNat) = some (b / 16) :=
    hexVal_hexDigitU _ (by omega)
  have h2 : hexVal ((hexDigitU (b % 16)).toNat) = some (b % 16) :=
    hexVal_hexDigitU _ (by omega)
  show pctDecodeBytes (37 :: (hexDigitU (b / 16)).toNat :: (hexDigitU (b % 16)).toNat :: rest)
      = b :: pctDecodeBytes rest
  rw [pctDecodeBytes.eq_def]
  simp only [if_pos rfl, h1, h2]
  have hn : 16 * (b / 16) + b % 16 = b := by omega
  rw [hn]
  simp

theorem uint32_le_toNat {a b : UInt32} (h : a ≤ b) : a.toNat ≤ b.toNat := by
  rw [UInt32.le_def, BitVec.le_def] at h
  exact h

theorem safe_toNat_lt128 {c : Char} (h : isAlwaysSafe c = true) : c.toNat < 128 := by
  unfold isAlwaysSafe at h
  simp only [Bool.or_eq_true, beq_iff_eq, Char.isAlpha, Char.isUpper, Char.isLower,
    Char.isDigit, Bool.and_eq_true, decide_eq_true_eq] at h
  have h90 : (90 : UInt32).toNat = 90 := rfl
  have h122 : (122 : UInt32).toNat = 122 := rfl
  have h57 : (57 : UInt32).toNat = 57 := rfl
  rcases h with (((((h | h) | h) | h) | h) | h) | h
  · have := uint32_le_toNat h.2
    show c.val.toNat < 128
    omega
  · have := uint32_le_toNat h.2
    show c.val.toNat < 128
    omega
  · have := uint32_le_toNat h.2
    show c.val.toNat < 128
    omega
  · rw [h]; decide
  · rw [h]; decide
  · rw [h]; decide
  · rw [h]; decide

theorem char_toNat_inj {c d : Char} (h : c.toNat = d.toNat) : c = d := by
  have h1 : Char.ofNat c.toNat = Char.ofNat d.toNat := by rw [h]
  rwa [Char.ofNat_toNat, Char.ofNat_toNat] at h1

theorem plusChar_hexDigitU : ∀ x < 16, plusChar (hexDigitU x) = hexDigitU x := by decide

theorem ascii_hexDigitU : ∀ x < 16, charIsAscii (hexDigitU x) = true := by decide

theorem quotePlusChar_map_plusChar (c : Char) :
    (quotePlusChar c).map plusChar = qpPiece c := by
  unfold quotePlusChar qpPiece
  by_cases hs : isAlwaysSafe c
  · rw [if_pos hs, if_pos hs]
    have hne : c ≠ '+' := by
      intro h
      rw [h] at hs
      exact absurd hs (by decide)
    simp [plusChar, hne]
  · rw [if_neg hs, if_neg hs]
    by_cases hsp : c = ' '
    · rw [if_pos hsp, if_pos hsp]
      rfl
    · rw [if_neg hsp, if_neg hsp]
      rw [map_listFlat]
      apply listFlat_congr
      intro b hb
      have hb256 := utf8EncodeChar_lt256 c b hb
      have d1 := plusChar_hexDigitU (b / 16) (by omega)
      have d2 := plusChar_hexDigitU (b % 16) (by omega)
      unfold pctEncByte
      simp only [List.map_cons, List.map_nil, d1, d2]
      rw [show plusChar '%' = '%' from rfl]

theorem mem_listFlat {f : α → List β} {b : β} {l : List α} :
    b ∈ listFlat f l ↔ ∃ a ∈ l, b ∈ f a := by
  induction l with
  | nil => simp
  | cons a l ih => simp [listFlat_cons, List.mem_append, ih]

/-- Classification of the characters in an escape piece. -/
theorem mem_pctEnc_cases {c' c : Char} (hmem : c' ∈ listFlat pctEncByte (utf8EncodeChar c)) :
    c' = '%' ∨ ∃ x < 16, c' = hexDigitU x := by
  rw [mem_listFlat] at hmem
  obtain ⟨b, hb, hmem⟩ := hmem
  have hb256 := utf8EncodeChar_lt256 c b hb
  unfold pctEncByte at hmem
  simp at hmem
  rcases hmem with h | h | h
  · exact Or.inl h
  · exact Or.inr ⟨b / 16, by omega, h⟩
  · exact Or.inr ⟨b % 16, by omega, h⟩

theorem mem_qpPiece_ascii {c' c : Char} (h : c' ∈ qpPiece c) : charIsAscii c' = true := by
  unfold qpPiece at h
  by_cases hs : isAlwaysSafe c
  · rw [if_pos hs] at h
    simp at h
    subst h
    unfold charIsAscii
    simp [safe_toNat_lt128 hs]
  · rw [if_neg hs] at h
    by_cases hsp : c = ' '
    · rw [if_pos hsp] at h
      simp at h
      subst h
      decide
    · rw [if_neg hsp] at h
      rcases mem_pctEnc_cases h with h | ⟨x, hx, h⟩
      · subst h; decide
      · subst h; exact ascii_hexDigitU x hx

theorem safe_toNat_ne_37 {c : Char} (hs : isAlwaysSafe c = true) : c.toNat ≠ 37 := by
  intro h
  have : c = '%' := char_toNat_inj (h.trans rfl)
  rw [this] at hs
  exact absurd hs (by decide)

/-- Unescaping the concatenated escapes of a byte list recovers the bytes. -/
theorem pctDecodeBytes_escape_list {bs : List Nat} (hb : ∀ b ∈ bs, b < 256) (rest : List Nat) :
    pctDecodeBytes (listFlat (fun b => (pctEncByte b).map Char.toNat) bs ++ rest)
      = bs ++ pctDecodeBytes rest := by
  induction bs with
  | nil => simp
  | cons b bs ih =>
    rw [listFlat_cons, List.append_assoc,
      pctDecodeBytes_escape (hb b (List.mem_cons_self b bs))]
    rw [show pctDecodeBytes (listFlat (fun b => (pctEncByte b).map Char.toNat) bs ++ rest)
        = bs ++ pctDecodeBytes rest from ih (fun x hx => hb x (List.mem_cons_of_mem b hx))]
    rfl

/-- Byte-level unescape of one `qpPiece`, followed by the rest. -/
theorem pctDecodeBytes_qpPiece (c : Char) (rest : List Nat) :
    pctDecodeBytes ((qpPiece c).map Char.toNat ++ rest)
      = utf8EncodeChar c ++ pctDecodeBytes rest := by
  unfold qpPiece
  by_cases hs : isAlwaysSafe c
  · rw [if_pos hs]
    simp only [List.map_cons, List.map_nil, List.cons_append, List.nil_append]
    rw [pctDecodeBytes_cons_ne (safe_toNat_ne_37 hs)]
    have : utf8EncodeChar c = [c.toNat] := by
      unfold utf8EncodeChar
      rw [if_pos (safe_toNat_lt128 hs)]
    rw [this]
    rfl
  · rw [if_neg hs]
    by_cases hsp : c = ' '
    · rw [if_pos hsp, hsp]
      simp only [List.map_cons, List.map_nil, List.cons_append, List.nil_append]
      rw [show (' ').toNat = 32 from rfl, pctDecodeBytes_cons_ne (by omega)]
      rfl
    · rw [if_neg hsp]
      rw [map_listFlat]
      exact pctDecodeBytes_escape_list (utf8EncodeChar_lt256 c) rest

theorem pctDecodeBytes_qpPieces (l : List Char) :
    pctDecodeBytes (listFlat (fun c => (qpPiece c).map Char.toNat) l)
      = listFlat utf8EncodeChar l := by
  suffices h : ∀ rest, pctDecodeBytes (listFlat (fun c => (qpPiece c).map Char.toNat) l ++ rest)
      = listFlat utf8EncodeChar l ++ pctDecodeBytes rest by
    have h2 := h []
    have h0 : pctDecodeBytes ([] : List Nat) = [] := by rw [pctDecodeBytes.eq_def]
    rw [List.append_nil, h0, List.append_nil] at h2
    exact h2
  induction l with
  | nil => simp
  | cons c l ih =>
    intro rest
    rw [listFlat_cons, List.append_assoc, pctDecodeBytes_qpPiece, listFlat_cons,
      List.append_assoc, ih rest]

theorem asciiRuns_all_ascii {l : List Char} (hne : l ≠ [])
    (h : ∀ c ∈ l, charIsAscii c = true) : asciiRuns l = [(true, l)] := by
  induction l with
  | nil => exact absurd rfl hne
  | cons c rest ih =>
    have hc := h c (List.mem_cons_self c rest)
    unfold asciiRuns
    cases rest with
    | nil => simp [asciiRuns, hc]
    | cons d rest' =>
      rw [ih (by simp) (fun x hx => h x (List.mem_cons_of_mem c hx))]
      simp [hc]

/-- When no escape is produced, the pieces are the original characters. -/
theorem qpPiece_id_of_no_pct {l : List Char} (hp : '%' ∉ listFlat qpPiece l) :
    listFlat qpPiece l = l := by
  induction l with
  | nil => rfl
  | cons c rest ih =>
    rw [listFlat_cons] at hp ⊢
    have hpc : '%' ∉ qpPiece c := fun h => hp (List.mem_append_left _ h)
    have hpr : '%' ∉ listFlat qpPiece rest := fun h => hp (List.mem_append_right _ h)
    rw [ih hpr]
    have : qpPiece c = [c] := by
      unfold qpPiece
      by_cases hs : isAlwaysSafe c
      · rw [if_pos hs]
      · rw [if_neg hs]
        by_cases hsp : c = ' '
        · rw [if_pos hsp, hsp]
        · rw [if_neg hsp]
          exfalso
          apply hpc
          unfold qpPiece
          rw [if_neg hs, if_neg hsp]
          match he : utf8EncodeChar c with
          | [] => exact absurd he (utf8EncodeChar_ne_nil c)
          | b :: bs =>
            rw [listFlat_cons]
            exact List.mem_append_left _ (List.mem_cons_self '%' _)
    rw [this]
    rfl

/-- The round trip of the `urllib` model: `unquote_plus(quote_plus(v)) = v`. -/
theorem unquotePlus_quotePlus (s : String) : unquotePlus (quotePlus s) = s := by
  unfold unquotePlus quotePlus
  have hmap : ((⟨listFlat quotePlusChar s.data⟩ : String).data).map plusChar
      = listFlat qpPiece s.data := by
    show (listFlat quotePlusChar s.data).map plusChar = listFlat qpPiece s.data
    rw [map_listFlat]
    exact listFlat_congr (fun c _ => quotePlusChar_map_plusChar c)
  rw [hmap]
  unfold unquoteStr
  by_cases hp : '%' ∈ (⟨listFlat qpPiece s.data⟩ : String).data
  · rw [if_pos hp]
    have hpl : '%' ∈ listFlat qpPiece s.data := hp
    have hne : listFlat qpPiece s.data ≠ [] := by
      intro h
      rw [h] at hpl
      exact absurd hpl (List.not_mem_nil '%')
    have hascii : ∀ c ∈ listFlat qpPiece s.data, charIsAscii c = true := by
      intro c hc
      rw [mem_listFlat] at hc
      obtain ⟨a, _, hc⟩ := hc
      exact mem_qpPiece_ascii hc
    show (⟨listFlat
        (fun br => if br.1 then utf8Decode (pctDecodeBytes (br.2.map Char.toNat)) else br.2)
        (asciiRuns (listFlat qpPiece s.data))⟩ : String) = s
    rw [asciiRuns_all_ascii hne hascii]
    rw [listFlat_cons, listFlat_nil, List.append_nil]
    show (⟨utf8Decode (pctDecodeBytes ((listFlat qpPiece s.data).map Char.toNat))⟩ : String) = s
    rw [map_listFlat, pctDecodeBytes_qpPieces, utf8Decode_listFlat]
  · rw [if_neg hp]
    have : listFlat qpPiece s.data = s.data := qpPiece_id_of_no_pct hp
    show (⟨listFlat qpPiece s.data⟩ : String) = s
    rw [this]

theorem hexDigitU_ne_amp_eq : ∀ x < 16, hexDigitU x ≠ '&' ∧ hexDigitU x ≠ '=' := by decide

/-- `quote_plus` output never contains `&` or `=`. -/
theorem quotePlus_no_meta (s : String) {c : Char} (hc : c ∈ (quotePlus s).data) :
    c ≠ '&' ∧ c ≠ '=' := by
  have hc' : c ∈ listFlat quotePlusChar s.data := hc
  rw [mem_listFlat] at hc'
  obtain ⟨a, _, hmem⟩ := hc'
  unfold quotePlusChar at hmem
  by_cases hs : isAlwaysSafe a
  · rw [if_pos hs] at hmem
    simp at hmem
    subst hmem
    constructor
    · intro h; rw [h] at hs; exact absurd hs (by decide)
    · intro h; rw [h] at hs; exact absurd hs (by decide)
  · rw [if_neg hs] at hmem
    by_cases hsp : a = ' '
    · rw [if_pos hsp] at hmem
      simp at hmem
      subst hmem
      exact ⟨by decide, by decide⟩
    · rw [if_neg hsp] at hmem
      rcases mem_pctEnc_cases hmem with h | ⟨x, hx, h⟩
      · subst h; exact ⟨by decide, by decide⟩
      · subst h; exact hexDigitU_ne_amp_eq x hx

/-! ## Decoder lemmas (`GetAQProperties`) -/

theorem decodeTokStep_places {set : String} {props lcProps decodeProps : List String}
    {tok k v : String}
    (h : placesDirectly set props lcProps decodeProps tok = some (k, v)) (st : DecSt) :
    decodeTokStep set props lcProps decodeProps st tok
      = { st with propsMap := pyDictInsert st.propsMap k v } := by
  unfold placesDirectly at h
  unfold decodeTokStep
  cases hsp : pySplitStr '=' tok with
  | nil => rw [hsp] at h; simp at h
  | cons a tl =>
    cases tl with
    | nil => rw [hsp] at h; simp at h
    | cons b tl2 =>
      cases tl2 with
      | nil =>
        rw [hsp] at h
        dsimp only at h ⊢
        by_cases hkept : a ∈ props ∨ "*" ∈ props
        · rw [if_pos hkept] at h ⊢
          by_cases hroute : "*" ∈ props ∧ pyLower set = "om" ∧ a ∉ OM_NON_ATTR
          · rw [if_pos hroute] at h
            simp at h
          · rw [if_neg hroute] at h ⊢
            simp only [Option.some.injEq, Prod.mk.injEq] at h
            obtain ⟨h1, h2⟩ := h
            subst h1
            rw [h2]
        · rw [if_neg hkept] at h
          simp at h
      | cons q tl3 => rw [hsp] at h; simp at h

theorem decodeTokStep_propsMap_of_none {set : String} {props lcProps decodeProps : List String}
    {tok : String}
    (h : placesDirectly set props lcProps decodeProps tok = none) (st : DecSt) :
    (decodeTokStep set props lcProps decodeProps st tok).propsMap = st.propsMap := by
  unfold placesDirectly at h
  unfold decodeTokStep
  cases hsp : pySplitStr '=' tok with
  | nil => rfl
  | cons a tl =>
    cases tl with
    | nil => rfl
    | cons b tl2 =>
      cases tl2 with
      | nil =>
        rw [hsp] at h
        dsimp only at h ⊢
        by_cases hkept : a ∈ props ∨ "*" ∈ props
        · rw [if_pos hkept] at h
          rw [if_pos hkept]
          by_cases hroute : "*" ∈ props ∧ pyLower set = "om" ∧ a ∉ OM_NON_ATTR
          · rw [if_pos hroute]
          · rw [if_neg hroute] at h
            simp at h
        · rw [if_neg hkept]
          by_cases hattr : "attr" ∈ props ∧ pyLower set = "om"
          · rw [if_pos hattr]
            by_cases hres : a ∉ OM_NON_ATTR
            · rw [if_pos hres]
            · rw [if_neg hres]
          · rw [if_neg hattr]
      | cons q tl3 => rfl

/-- Tokens whose `=`-split does not have exactly two parts leave the
decoder state unchanged. -/
theorem decodeTokStep_skip {set : String} {props lcProps decodeProps : List String}
    {tok : String} (h : (pySplitStr '=' tok).length ≠ 2) (st : DecSt) :
    decodeTokStep set props lcProps decodeProps st tok = st := by
  unfold decodeTokStep
  cases hsp : pySplitStr '=' tok with
  | nil => rfl
  | cons a tl =>
    cases tl with
    | nil => rfl
    | cons b tl2 =>
      cases tl2 with
      | nil => rw [hsp] at h; simp at h
      | cons q tl3 => rfl

theorem pyLookup_append (m1 m2 : PyDict) (k : String) :
    pyLookup (m1 ++ m2) k
      = match pyLookup m1 k with
        | some v => some v
        | none => pyLookup m2 k := by
  induction m1 with
  | nil => simp [pyLookup]
  | cons kv rest ih =>
    obtain ⟨k', v'⟩ := kv
    by_cases h : k' = k
    · simp [pyLookup, h]
    · simp only [List.cons_append, pyLookup, if_neg h]
      exact ih

theorem foldl_decode_lookup_preserved {set : String} {props lcProps decodeProps : List String}
    {k v : String} (l : List String) (st : DecSt)
    (hst : pyLookup st.propsMap k = some v)
    (hl : ∀ t ∈ l, ∀ v', placesDirectly set props lcProps decodeProps t ≠ some (k, v')) :
    pyLookup (l.foldl (decodeTokStep set props lcProps decodeProps) st).propsMap k = some v := by
  induction l generalizing st with
  | nil => exact hst
  | cons t l ih =>
    rw [List.foldl_cons]
    apply ih
    · cases hp : placesDirectly set props lcProps decodeProps t with
      | none =>
        rw [decodeTokStep_propsMap_of_none hp]
        exact hst
      | some kv =>
        obtain ⟨k', v'⟩ := kv
        have hne : k' ≠ k := by
          intro he
          exact hl t (List.mem_cons_self t l) v' (by rw [hp, he])
        rw [decodeTokStep_places hp]
        show pyLookup (pyDictInsert st.propsMap k' v') k = some v
        rw [pyLookup_pyDictInsert_ne _ _ _ _ hne]
        exact hst
    · exact fun t' ht' => hl t' (List.mem_cons_of_mem t ht')

theorem decodeFinish_lookup_preserved {st : DecSt} {k v : String}
    (h : pyLookup st.propsMap k = some v) : pyLookup (decodeFinish st) k = some v := by
  unfold decodeFinish
  by_cases hk : k = "attr"
  · subst hk
    have hcond : ¬ (st.attrBuf.length > 0 ∧ pyLookup st.propsMap "attr" = none) := by
      intro hc
      rw [h] at hc
      exact absurd hc.2 (by simp)
    rw [if_neg hcond]
    exact h
  · split
    · rw [pyLookup_pyDictInsert_ne _ _ _ _ (fun he => hk he.symm)]
      exact h
    · exact h

/-- Routing lemma for `C6`: with the wildcard requested and the `om` set, a
well-formed token with an unreserved key goes raw into the attribute buffer. -/
theorem decodeTokStep_routes {set : String} {props lcProps decodeProps : List String}
    {tok key value : String} (hsp : pySplitStr '=' tok = [key, value])
    (hw : "*" ∈ props) (hom : pyLower set = "om") (hres : key ∉ OM_NON_ATTR) (st : DecSt) :
    decodeTokStep set props lcProps decodeProps st tok
      = { st with attrBuf := st.attrBuf ++ [tok] } := by
  unfold decodeTokStep
  rw [hsp]
  dsimp only
  rw [if_pos (Or.inr hw), if_pos ⟨hw, hom, hres⟩]

/-- Finishing lemma for `C6`: a non-empty attribute buffer with no `attr` key
appends `attr` bound to the `&`-join of the buffered raw tokens. -/
theorem decodeFinish_appends {st : DecSt} (hbuf : st.attrBuf ≠ [])
    (hattr : pyLookup st.propsMap "attr" = none) :
    decodeFinish st
      = st.propsMap ++ [("attr", ⟨joinSep '&' (st.attrBuf.map String.data)⟩)] := by
  unfold decodeFinish
  rw [if_pos ⟨by cases hb : st.attrBuf with
      | nil => exact absurd hb hbuf
      | cons a l => simp [hb], hattr⟩]
  exact pyDictInsert_of_lookup_none _ _ _ hattr

/-- Fold lemma: when every token places directly with pairwise-distinct fresh
keys, the decoder state accumulates exactly those pairs, in order. -/
theorem foldl_decode_all_places {set : String} {props lcProps decodeProps : List String}
    (l : List String) (ps : List (String × String)) (st : DecSt)
    (hrel : List.Forall₂
      (fun t kv => placesDirectly set props lcProps decodeProps t = some kv) l ps)
    (hfresh : ∀ kv ∈ ps, pyLookup st.propsMap kv.1 = none)
    (hnodup : (ps.map Prod.fst).Nodup) :
    l.foldl (decodeTokStep set props lcProps decodeProps) st
      = ⟨st.propsMap ++ ps, st.attrBuf⟩ := by
  induction hrel generalizing st with
  | nil => simp
  | @cons t kv l' ps' hplace hrel ih =>
    obtain ⟨k, v⟩ := kv
    rw [List.foldl_cons, decodeTokStep_places hplace]
    have hins : pyDictInsert st.propsMap k v = st.propsMap ++ [(k, v)] :=
      pyDictInsert_of_lookup_none _ _ _ (hfresh (k, v) (List.mem_cons_self _ _))
    rw [hins]
    rw [ih]
    · simp
    · intro kv' hkv'
      rw [pyLookup_append]
      rw [hfresh kv' (List.mem_cons_of_mem _ hkv')]
      have hne : k ≠ kv'.1 := by
        simp only [List.map_cons, List.nodup_cons] at hnodup
        intro he
        exact hnodup.1 (he ▸ List.mem_map_of_mem Prod.fst hkv')
      simp [pyLookup, hne]
    · simp only [List.map_cons, List.nodup_cons] at hnodup
      exact hnodup.2

/-- The decoder recovers `(k, v)` from an encoder-style token `k=ev`, when the
percent-encoding flags match on both sides and the parts are metacharacter
free. -/
theorem placesDirectly_encToken {set : String} {props encodeProps : List String}
    {k v : String} (hset : pyLower set ≠ "om") (hkept : "*" ∈ props ∨ k ∈ props)
    (hkmeta : '=' ∉ k.data)
    (hv : ("*" ∈ encodeProps ∨ k ∈ encodeProps) ∨ '=' ∉ v.data) :
    placesDirectly set props [] encodeProps
      ⟨k.data ++ '=' ::
        (if "*" ∈ encodeProps ∨ k ∈ encodeProps then (quotePlus v).data else v.data)⟩
      = some (k, v) := by
  have hvmeta : '=' ∉ (if "*" ∈ encodeProps ∨ k ∈ encodeProps
      then (quotePlus v).data else v.data) := by
    by_cases he : "*" ∈ encodeProps ∨ k ∈ encodeProps
    · rw [if_pos he]
      intro hc
      exact absurd rfl (quotePlus_no_meta v hc).2
    · rw [if_neg he]
      exact hv.resolve_left he
  have hsplit : pySplitStr '='
      (⟨k.data ++ '=' ::
        (if "*" ∈ encodeProps ∨ k ∈ encodeProps then (quotePlus v).data else v.data)⟩ : String)
      = [k, ⟨if "*" ∈ encodeProps ∨ k ∈ encodeProps then (quotePlus v).data else v.data⟩] := by
    unfold pySplitStr
    rw [show (⟨k.data ++ '=' ::
        (if "*" ∈ encodeProps ∨ k ∈ encodeProps then (quotePlus v).data else v.data)⟩
        : String).data
      = k.data ++ '=' ::
        (if "*" ∈ encodeProps ∨ k ∈ encodeProps then (quotePlus v).data else v.data) from rfl]
    rw [pySplit_pair '=' _ _ hkmeta hvmeta]
    simp
  unfold placesDirectly
  rw [hsplit]
  dsimp only
  rw [if_pos (hkept.elim Or.inr Or.inl)]
  have hroute : ¬ ("*" ∈ props ∧ pyLower set = "om" ∧ k ∉ OM_NON_ATTR) := by
    intro hc
    exact hset hc.2.1
  rw [if_neg hroute]
  simp only [List.not_mem_nil, or_false, false_or]
  by_cases he : "*" ∈ encodeProps ∨ k ∈ encodeProps
  · rw [if_pos he, if_pos (show k ∈ encodeProps ∨ "*" ∈ encodeProps by tauto)]
    rw [show (⟨(quotePlus v).data⟩ : String) = quotePlus v from rfl]
    rw [unquotePlus_quotePlus]
    simp
  · rw [if_neg he, if_neg (show ¬ (k ∈ encodeProps ∨ "*" ∈ encodeProps) by tauto)]
    simp

theorem encTok_amp_free {P E : List String} {p : PyDict} (hs : rtSafe P E p)
    {kv : String × String} (hkv : kv ∈ p) {t : List Char}
    (ht : encTok P E kv = some t) : '&' ∉ t := by
  unfold encTok at ht
  by_cases hq : "*" ∈ P ∨ kv.1 ∈ P
  · rw [if_pos hq] at ht
    simp only [Option.some.injEq] at ht
    subst ht
    intro hmem
    rcases List.mem_append.mp hmem with h | h
    · exact ((hs kv hkv hq).1.1) h
    · rcases List.mem_cons.mp h with h | h
      · exact absurd h (by decide)
      · by_cases he : "*" ∈ E ∨ kv.1 ∈ E
        · rw [if_pos he] at h
          exact absurd rfl (quotePlus_no_meta kv.2 h).1
        · rw [if_neg he] at h
          exact ((hs kv hkv hq).2.resolve_left he).1 h
  · rw [if_neg hq] at ht
    exact absurd ht (by simp)

theorem forall₂_encTok_filter (set : String) (P E : List String) (p : PyDict)
    (hset : pyLower set ≠ "om") (hs : rtSafe P E p) :
    List.Forall₂ (fun t kv => placesDirectly set P [] E t = some kv)
      ((p.filterMap (encTok P E)).map (fun l => (⟨l⟩ : String)))
      (p.filter (fun kv => decide ("*" ∈ P ∨ kv.1 ∈ P))) := by
  induction p with
  | nil => simp
  | cons kv rest ih =>
    have hs' : rtSafe P E rest := fun x hx => hs x (List.mem_cons_of_mem kv hx)
    by_cases hq : "*" ∈ P ∨ kv.1 ∈ P
    · rw [List.filterMap_cons, show encTok P E kv
          = some (kv.1.data ++ '=' ::
            (if "*" ∈ E ∨ kv.1 ∈ E then (quotePlus kv.2).data else kv.2.data)) from by
        unfold encTok
        rw [if_pos hq]]
      rw [List.filter_cons, if_pos (decide_eq_true hq)]
      rw [List.map_cons]
      refine List.Forall₂.cons ?_ (ih hs')
      have hsk := hs kv (List.mem_cons_self kv rest) hq
      exact @placesDirectly_encToken set P E kv.1 kv.2
        hset hq hsk.1.2 (hsk.2.imp_right (fun h => h.2))
    · rw [List.filterMap_cons, show encTok P E kv = none from by
        unfold encTok
        rw [if_neg hq]]
      rw [List.filter_cons, if_neg (by simpa using hq)]
      exact ih hs'

/-- Round trip at the heart of `C4`: decoding an encoded mapping recovers the
mapping restricted to the wanted keys. -/
theorem decode_encode_roundtrip (set : String) (p : PyDict) (P E : List String)
    (hset : pyLower set ≠ "om")
    (hnodup : (p.map Prod.fst).Nodup)
    (hs : rtSafe P E p) :
    GetAQProperties set ((GetCATProperties (some p) P E).getD "") P [] E
      = p.filter (fun kv => decide ("*" ∈ P ∨ kv.1 ∈ P)) := by
  have henc : GetCATProperties (some p) P E
      = some ⟨joinSep '&' (p.filterMap (encTok P E))⟩ := rfl
  rw [henc]
  rw [show (some (⟨joinSep '&' (p.filterMap (encTok P E))⟩ : String)).getD ""
      = ⟨joinSep '&' (p.filterMap (encTok P E))⟩ from rfl]
  by_cases hP : P.length > 0
  · unfold GetAQProperties
    rw [if_pos hP]
    cases htoks : p.filterMap (encTok P E) with
    | nil =>
      have hfilter : p.filter (fun kv => decide ("*" ∈ P ∨ kv.1 ∈ P)) = [] := by
        rw [List.filter_eq_nil_iff]
        intro kv hkv
        simp only [decide_eq_true_eq]
        intro hq
        have : encTok P E kv ≠ none := by
          unfold encTok
          rw [if_pos hq]
          simp
        exact this (List.filterMap_eq_nil_iff.mp htoks kv hkv)
      rw [hfilter]
      rw [show (⟨joinSep '&' ([] : List (List Char))⟩ : String) = "" from rfl]
      rw [show pySplitStr '&' "" = [""] from rfl]
      rw [List.foldl_cons, List.foldl_nil]
      rw [decodeTokStep_skip (by rw [show pySplitStr '=' "" = [""] from rfl]; simp)]
      rfl
    | cons t ts =>
      have hfree : ∀ u ∈ t :: ts, '&' ∉ u := by
        intro u hu
        rw [← htoks] at hu
        obtain ⟨kv, hkv, hkvt⟩ := List.mem_filterMap.mp hu
        exact encTok_amp_free hs hkv hkvt
      have hsplit : pySplitStr '&' (⟨joinSep '&' (t :: ts)⟩ : String)
          = (t :: ts).map (fun l => (⟨l⟩ : String)) := by
        unfold pySplitStr
        rw [show (⟨joinSep '&' (t :: ts)⟩ : String).data = joinSep '&' (t :: ts) from rfl]
        rw [pySplit_joinSep '&' (t :: ts) (by simp) hfree]
      rw [hsplit, ← htoks]
      have hform := forall₂_encTok_filter set P E p hset hs
      have hnodup2 : ((p.filter (fun kv => decide ("*" ∈ P ∨ kv.1 ∈ P))).map Prod.fst).Nodup :=
        List.Nodup.sublist (List.Sublist.map Prod.fst (List.filter_sublist p)) hnodup
      rw [foldl_decode_all_places _ _ ⟨[], []⟩ hform (by simp) hnodup2]
      unfold decodeFinish
      rw [if_neg (by simp)]
      simp
  · unfold GetAQProperties
    rw [if_neg hP]
    have hPnil : P = [] := by
      cases P with
      | nil => rfl
      | cons a l => simp at hP
    subst hPnil
    rw [List.filter_eq_nil_iff.mpr]
    intro kv _
    simp

/-! ## Hydrator lemmas -/

theorem sweep_aux (doc : List Char) (endOff : Int) (pairs : List (Int × Int)) :
    ∀ (acc : List Char) (c : Int), 0 ≤ c → 0 ≤ endOff →
    (∀ p ∈ pairs, 0 ≤ p.1 ∧ 0 ≤ p.2) →
    (if (pairs.foldl (sweepStep doc) (acc, c)).2 < endOff
     then (pairs.foldl (sweepStep doc) (acc, c)).1
        ++ pySlice doc (pairs.foldl (sweepStep doc) (acc, c)).2 endOff
     else (pairs.foldl (sweepStep doc) (acc, c)).1)
      = acc ++ specGapConcat doc endOff c pairs := by
  induction pairs with
  | nil =>
    intro acc c hc hend _
    simp only [List.foldl_nil]
    unfold specGapConcat
    by_cases h : c < endOff
    · rw [if_pos h]
    · rw [if_neg h]
      rw [pySlice_empty doc hend (by omega)]
      simp
  | cons p rest ih =>
    intro acc c hc hend hp
    obtain ⟨s, e⟩ := p
    have hse := hp (s, e) (List.mem_cons_self _ _)
    have hrest : ∀ q ∈ rest, 0 ≤ q.1 ∧ 0 ≤ q.2 :=
      fun q hq => hp q (List.mem_cons_of_mem _ hq)
    rw [List.foldl_cons]
    unfold specGapConcat
    by_cases hb : s ≤ c
    · have hstep : sweepStep doc (acc, c) (s, e) = (acc, e) := by
        unfold sweepStep
        rw [if_pos hb]
      rw [hstep, ih acc e hse.2 hend hrest]
      rw [pySlice_empty doc hse.1 hb]
      simp
    · have hstep : sweepStep doc (acc, c) (s, e) = (acc ++ pySlice doc c s, e) := by
        unfold sweepStep
        rw [if_neg hb]
      rw [hstep, ih (acc ++ pySlice doc c s) e hse.2 hend hrest, List.append_assoc]

/-- With nonnegative offsets (the spec's data-model invariant), the exclusion
sweep computes exactly the spec's gap concatenation. -/
theorem sweepText_eq_specGapConcat (doc : List Char) (startOff endOff : Int)
    (pairs : List (Int × Int)) (hstart : 0 ≤ startOff) (hend : 0 ≤ endOff)
    (hp : ∀ p ∈ pairs, 0 ≤ p.1 ∧ 0 ≤ p.2) :
    sweepText doc startOff endOff pairs = specGapConcat doc endOff startOff pairs := by
  have h := sweep_aux doc endOff pairs [] startOff hstart hend hp
  simpa using h

/-- Emptiness of the gap concatenation when the (sorted, end-monotone,
within-span) exclusions cover the whole remaining span. -/
theorem specGapConcat_empty (doc : List Char) (endOff : Int)
    (pairs : List (Int × Int)) (hend : 0 ≤ endOff) :
    ∀ c : Int, 0 ≤ c →
    pairs.Pairwise (fun p q => p.1 ≤ q.1) →
    pairs.Pairwise (fun p q => p.2 ≤ q.2) →
    (∀ p ∈ pairs, 0 ≤ p.1 ∧ p.1 ≤ p.2 ∧ p.2 ≤ endOff) →
    (∀ p ∈ pairs, c ≤ p.2) →
    (∀ x : Int, c ≤ x → x < endOff → ∃ p ∈ pairs, p.1 ≤ x ∧ x < p.2) →
    specGapConcat doc endOff c pairs = [] := by
  induction pairs with
  | nil =>
    intro c hc _ _ _ _ hcov
    unfold specGapConcat
    have hce : endOff ≤ c := by
      by_contra hlt
      obtain ⟨p, hp, _⟩ := hcov c le_rfl (by omega)
      exact absurd hp (List.not_mem_nil p)
    exact pySlice_empty doc hend hce
  | cons p rest ih =>
    intro c hc hsorted hmono hwithin hB hcov
    obtain ⟨s, e⟩ := p
    have hw := hwithin (s, e) (List.mem_cons_self _ _)
    have hBe := hB (s, e) (List.mem_cons_self _ _)
    unfold specGapConcat
    have hs_le_c : s ≤ c := by
      by_cases hce : c < endOff
      · obtain ⟨q, hq, hqs, hqe⟩ := hcov c le_rfl hce
        rcases List.mem_cons.mp hq with hq | hq
        · rw [hq] at hqs
          exact hqs
        · have := (List.pairwise_cons.mp hsorted).1 q hq
          omega
      · omega
    rw [pySlice_empty doc hw.1 hs_le_c]
    have hcov' : ∀ x : Int, e ≤ x → x < endOff → ∃ p ∈ rest, p.1 ≤ x ∧ x < p.2 := by
      intro x hx1 hx2
      obtain ⟨q, hq, hqs, hqe⟩ := hcov x (by omega) hx2
      rcases List.mem_cons.mp hq with hq | hq
      · rw [hq] at hqe
        simp at hqe
        omega
      · exact ⟨q, hq, hqs, hqe⟩
    rw [ih e (by omega) (List.pairwise_cons.mp hsorted).2 (List.pairwise_cons.mp hmono).2
      (fun q hq => hwithin q (List.mem_cons_of_mem _ hq))
      (fun q hq => (List.pairwise_cons.mp hmono).1 q hq)
      hcov']
    rfl

theorem processPairs_eq_self {entries : List (Int × String × String × Int × Int)}
    (hnodup : (entries.map (fun e => (e.2.2.2.1, e.2.2.2.2))).Nodup)
    (hsorted : (entries.map (fun e => (e.2.2.2.1, e.2.2.2.2))).Pairwise lexLe) :
    processPairs entries = entries.map (fun e => (e.2.2.2.1, e.2.2.2.2)) := by
  unfold processPairs
  have hne : entries.Nodup := List.Nodup.of_map _ hnodup
  rw [pyDedup_of_nodup _ hne, pyDedup_of_nodup _ hnodup, pySort_of_sorted _ hsorted]

theorem string_length_pos {s : String} (h : s ≠ "") : s.length > 0 := by
  cases s with
  | mk data =>
    cases data with
    | nil => exact absurd rfl h
    | cons c l => simp [String.length]

/-- Unfolding of the hydrator core on the exclusion-sweep path. -/
theorem hydrateCore_sweep_path (docText : String) (startOffset endOffset : Int) (m : PyDict)
    (exStr : String) (entries : List (Int × String × String × Int × Int))
    (hdoc : docText ≠ "") (htext : pyLookup m "text" = none)
    (hex : pyLookup m "excludes" = some exStr) (hlen : exStr ≠ "")
    (hparse : parseExcludes exStr = .ok entries) :
    HydrateTextCore docText startOffset endOffset (some m) true
      = .ok (some (pyDictInsert m "text"
          ⟨sweepText docText.data startOffset endOffset (processPairs entries)⟩)) := by
  unfold HydrateTextCore
  rw [if_neg (by
    simp only [hasKey, htext, Option.isSome_none, not_or]
    exact ⟨hdoc, by simp⟩)]
  dsimp only
  rw [hex]
  dsimp only
  rw [if_pos (string_length_pos hlen)]
  rw [hparse]
  rfl

/-! ## The claims -/

/-- C1, counterexample: at the sorted pair list `[(0,10), (2,5)]` the sweep
takes the `exS ≤ curOffset` branch on `(2,5)` and sets the cursor to `5`,
which is not `max 10 5`; the cursor decreases from `10` to `5`. -/
theorem claim1_cex :
    (2 : Int) ≤ 10 ∧
    sweepStep ("0123456789".data) ([], 10) (2, 5) = ([], 5) ∧
    ((5 : Int) ≠ max 10 5) ∧
    (List.foldl (sweepStep ("0123456789".data)) ([], 0) [((0 : Int), (10 : Int))]).2 = 10 ∧
    (List.foldl (sweepStep ("0123456789".data)) ([], 0)
      [((0 : Int), (10 : Int)), (2, 5)]).2 = 5 := by
  refine ⟨by decide, by decide, by decide, by decide, by decide⟩

/-- C1 (amended): whenever the next sorted exclusion pair `(exS, exE)`
satisfies `exS ≤ curOffset`, the sweep sets the cursor to `exE`
unconditionally — not to `max curOffset exE` — so the cursor can decrease. -/
theorem claim1_cursor_set_to_end (doc acc : List Char) (cur s e : Int) (h : s ≤ cur) :
    sweepStep doc (acc, cur) (s, e) = (acc, e) := by
  unfold sweepStep
  rw [if_pos h]

/-- C1, witness for the amended claim at a concrete input. -/
theorem claim1_witness :
    (2 : Int) ≤ (10 : Int) ∧ sweepStep [] ([], 10) (2, 5) = ([], 5) :=
  ⟨by decide, claim1_cursor_set_to_end [] [] 10 2 5 (by decide)⟩

/-- C2, counterexample: the parsed exclusions `(0,10)` and `(2,5)` fully
cover `[0,10)`, yet hydrating `"0123456789"` over `[0,10)` yields
`"56789"`, not the empty string (the nested pair drags the cursor back). -/
theorem claim2_cex :
    coversInt [((0 : Int), (10 : Int)), (2, 5)] 0 10 ∧
    processPairs [((0 : Int), "a", "b", (0 : Int), (10 : Int)), (0, "a", "b", 2, 5)]
      = [(0, 10), (2, 5)] ∧
    HydrateTextCore "0123456789" 0 10 (some [("excludes", "0,a,b,0,10|0,a,b,2,5")]) true
      = .ok (some [("excludes", "0,a,b,0,10|0,a,b,2,5"), ("text", "56789")]) ∧
    ("56789" : String) ≠ "" := by
  refine ⟨?_, by decide, by decide, by decide⟩
  intro x hx1 hx2
  exact ⟨(0, 10), List.mem_cons_self _ _, hx1, hx2⟩

/-- C2 (amended): when the parsed, processed exclusion pairs fully cover
`[startOffset, endOffset)`, and in addition every pair lies within the span
(`startOffset ≤ exS ≤ exE ≤ endOffset`) and the sorted pairs have
non-decreasing end offsets, the hydrator's reconstructed text is empty. -/
theorem claim2_covered_empty (docText : String) (startOffset endOffset : Int) (m : PyDict)
    (exStr : String) (entries : List (Int × String × String × Int × Int))
    (hdoc : docText ≠ "") (htext : pyLookup m "text" = none)
    (hex : pyLookup m "excludes" = some exStr) (hlen : exStr ≠ "")
    (hparse : parseExcludes exStr = .ok entries)
    (hstart : 0 ≤ startOffset) (hse : startOffset ≤ endOffset)
    (hwithin : ∀ p ∈ processPairs entries,
      startOffset ≤ p.1 ∧ p.1 ≤ p.2 ∧ p.2 ≤ endOffset)
    (hmono : (processPairs entries).Pairwise (fun p q => p.2 ≤ q.2))
    (hcov : coversInt (processPairs entries) startOffset endOffset) :
    HydrateTextCore docText startOffset endOffset (some m) true
      = .ok (some (pyDictInsert m "text" "")) := by
  rw [hydrateCore_sweep_path docText startOffset endOffset m exStr entries
    hdoc htext hex hlen hparse]
  have hend : 0 ≤ endOffset := le_trans hstart hse
  have hpairs0 : ∀ p ∈ processPairs entries, 0 ≤ p.1 ∧ 0 ≤ p.2 := by
    intro p hp
    have := hwithin p hp
    omega
  have hsortedStarts : (processPairs entries).Pairwise (fun p q => p.1 ≤ q.1) := by
    apply List.Pairwise.imp ?_ (pySort_pairwise _)
    intro p q h
    unfold lexLe at h
    omega
  have h1 : sweepText docText.data startOffset endOffset (processPairs entries) = [] := by
    rw [sweepText_eq_specGapConcat _ _ _ _ hstart hend hpairs0]
    apply specGapConcat_empty docText.data endOffset (processPairs entries) hend
      startOffset hstart hsortedStarts hmono
    · intro p hp
      have := hwithin p hp
      omega
    · intro p hp
      have := hwithin p hp
      omega
    · exact hcov
  rw [h1]

/-- C2, witness for the amended claim: two exclusions tiling `[0,10)`. -/
theorem claim2_witness :
    parseExcludes "1,a,b,0,5|1,a,b,5,10"
      = .ok [(1, "a", "b", 0, 5), (1, "a", "b", 5, 10)] ∧
    HydrateTextCore "0123456789" 0 10 (some [("excludes", "1,a,b,0,5|1,a,b,5,10")]) true
      = .ok (some [("excludes", "1,a,b,0,5|1,a,b,5,10"), ("text", "")]) := by
  have hpp : processPairs [((1 : Int), "a", "b", (0 : Int), (5 : Int)), (1, "a", "b", 5, 10)]
      = [(0, 5), (5, 10)] := by decide
  refine ⟨by decide, ?_⟩
  have h := claim2_covered_empty "0123456789" 0 10 [("excludes", "1,a,b,0,5|1,a,b,5,10")]
    "1,a,b,0,5|1,a,b,5,10" [(1, "a", "b", 0, 5), (1, "a", "b", 5, 10)]
    (by decide) (by decide) (by decide) (by decide) (by decide) (by decide) (by decide)
    (by decide) (by decide) ?_
  · rw [h]
    decide
  · rw [hpp]
    intro x hx1 hx2
    by_cases hx : x < 5
    · exact ⟨(0, 5), List.mem_cons_self _ _, hx1, hx⟩
    · exact ⟨(5, 10), by simp, by omega, hx2⟩

/-- C3: when the parsed exclusion pairs are well-formed, pairwise disjoint
and sorted ascending (and offsets are nonnegative, per the data-model
invariant), the hydrator's output text is exactly the spec's concatenation
of gap slices between consecutive exclusions. -/
theorem claim3_gap_concatenation (docText : String) (startOffset endOffset : Int)
    (m : PyDict) (exStr : String) (entries : List (Int × String × String × Int × Int))
    (hdoc : docText ≠ "") (htext : pyLookup m "text" = none)
    (hex : pyLookup m "excludes" = some exStr) (hlen : exStr ≠ "")
    (hparse : parseExcludes exStr = .ok entries)
    (hstart : 0 ≤ startOffset) (hend : 0 ≤ endOffset)
    (hpairs0 : ∀ p ∈ entries.map (fun e => (e.2.2.2.1, e.2.2.2.2)), 0 ≤ p.1 ∧ p.1 ≤ p.2)
    (hdisj : (entries.map (fun e => (e.2.2.2.1, e.2.2.2.2))).Pairwise
      (fun p q => p.2 ≤ q.1 ∧ p ≠ q)) :
    HydrateTextCore docText startOffset endOffset (some m) true
      = .ok (some (pyDictInsert m "text"
          ⟨specGapConcat docText.data endOffset startOffset
            (entries.map (fun e => (e.2.2.2.1, e.2.2.2.2)))⟩)) := by
  have hnodup : (entries.map (fun e => (e.2.2.2.1, e.2.2.2.2))).Nodup :=
    hdisj.imp (fun h => h.2)
  have hsorted : (entries.map (fun e => (e.2.2.2.1, e.2.2.2.2))).Pairwise lexLe := by
    apply List.Pairwise.imp_of_mem ?_ hdisj
    intro p q hp hq h
    have h1 := hpairs0 p hp
    have h2 := hpairs0 q hq
    unfold lexLe
    omega
  have hproc := processPairs_eq_self hnodup hsorted
  rw [hydrateCore_sweep_path docText startOffset endOffset m exStr entries
    hdoc htext hex hlen hparse, hproc]
  rw [sweepText_eq_specGapConcat _ _ _ _ hstart hend (by
    intro p hp
    have := hpairs0 p hp
    omega)]

/-- C3, witness: the spec's concrete scenario — text `"0123456789"`,
span `[0,10)`, exclusions `(2,4)` and `(6,8)`, output `"014589"`. -/
theorem claim3_witness :
    parseExcludes "1,x,y,2,4|1,x,y,6,8"
      = .ok [(1, "x", "y", 2, 4), (1, "x", "y", 6, 8)] ∧
    HydrateTextCore "0123456789" 0 10 (some [("excludes", "1,x,y,2,4|1,x,y,6,8")]) true
      = .ok (some [("excludes", "1,x,y,2,4|1,x,y,6,8"), ("text", "014589")]) ∧
    (⟨specGapConcat "0123456789".data 10 0 [((2 : Int), (4 : Int)), (6, 8)]⟩ : String)
      = "014589" := by
  refine ⟨by decide, ?_, by decide⟩
  have h := claim3_gap_concatenation "0123456789" 0 10
    [("excludes", "1,x,y,2,4|1,x,y,6,8")] "1,x,y,2,4|1,x,y,6,8"
    [(1, "x", "y", 2, 4), (1, "x", "y", 6, 8)]
    (by decide) (by decide) (by decide) (by decide) (by decide) (by decide) (by decide)
    (by decide) (by decide)
  rw [h]
  decide

/-- C4, counterexample: with `p = {a: "x&y"}`, `P = ["a"]` and matching empty
encode/decode key sets, the encoded string `"a=x&y"` decodes to `{a: "x"}`,
not to `p` restricted to `P`. -/
theorem claim4_cex :
    GetCATProperties (some [("a", "x&y")]) ["a"] [] = some "a=x&y" ∧
    GetAQProperties "s" "a=x&y" ["a"] [] [] = [("a", "x")] ∧
    [("a", "x&y")].filter (fun kv => decide ("*" ∈ ["a"] ∨ kv.1 ∈ ["a"]))
      = [("a", "x&y")] ∧
    ([("a", "x")] : PyDict) ≠ [("a", "x&y")] := by
  refine ⟨by decide, by decide, by decide, by decide⟩

/-- C4 (amended): decoding the string encoded from `p` with `(P, E)` using
`(P, E)` reproduces `p` restricted to the keys of `P`, provided the decode
set is not the reserved `om` set, `p`'s keys are distinct, qualifying keys
contain no `&`/`=`, and each qualifying entry is either percent-encoded
(key matching `E`) or has a value free of `&`/`=`. -/
theorem claim4_roundtrip (set : String) (p : PyDict) (P E : List String)
    (hset : pyLower set ≠ "om")
    (hnodup : (p.map Prod.fst).Nodup)
    (hs : rtSafe P E p) :
    GetAQProperties set ((GetCATProperties (some p) P E).getD "") P [] E
      = p.filter (fun kv => decide ("*" ∈ P ∨ kv.1 ∈ P)) :=
  decode_encode_roundtrip set p P E hset hnodup hs

/-- C4, witness: a two-entry mapping with one percent-encoded value. -/
theorem claim4_witness :
    pyLower "S" ≠ "om" ∧
    (([("a", "x y"), ("b", "2")] : PyDict).map Prod.fst).Nodup ∧
    rtSafe ["*"] ["a"] [("a", "x y"), ("b", "2")] ∧
    GetAQProperties "S"
      ((GetCATProperties (some [("a", "x y"), ("b", "2")]) ["*"] ["a"]).getD "")
      ["*"] [] ["a"]
      = ([("a", "x y"), ("b", "2")] : PyDict).filter
          (fun kv => decide ("*" ∈ ["*"] ∨ kv.1 ∈ ["*"])) := by
  refine ⟨by decide, by decide, ?_, ?_⟩
  · unfold rtSafe
    decide
  · exact claim4_roundtrip "S" [("a", "x y"), ("b", "2")] ["*"] ["a"]
      (by decide) (by decide) (by unfold rtSafe; decide)

/-- C5, counterexample: the token `a=b=c` contains `=`, so by the claim it
would be split at the first `=` into `(a, b=c)` and kept; the decoder
instead drops it entirely (its `=`-split has three parts, not two). -/
theorem claim5_cex :
    GetAQProperties "s" "a=b=c" ["a"] [] [] = [] ∧
    pyLookup (GetAQProperties "s" "a=b=c" ["a"] [] []) "a" ≠ some "b=c" := by
  refine ⟨by decide, by decide⟩

/-- C5 (amended): the decoder splits `rawOther` on `&` and each token on
`=`; a token is parsed as `(key, value)` only when the split has exactly two
parts (exactly one `=`); every other token — no `=` or several — leaves the
decoder state unchanged, and no input raises an error (the model is a total
function). -/
theorem claim5_malformed_skipped (set : String) (props lcProps decodeProps : List String)
    (st : DecSt) (tok : String) (h : (pySplitStr '=' tok).length ≠ 2) :
    decodeTokStep set props lcProps decodeProps st tok = st :=
  decodeTokStep_skip h st

/-- C5, witness: the three-part token `a=b=c` is skipped. -/
theorem claim5_witness :
    (pySplitStr '=' "a=b=c").length ≠ 2 ∧
    decodeTokStep "s" ["a"] [] [] ⟨[], []⟩ "a=b=c" = ⟨[], []⟩ :=
  ⟨by decide, claim5_malformed_skipped "s" ["a"] [] [] ⟨[], []⟩ "a=b=c" (by decide)⟩

/-- C6: with the wildcard in `wantedProps` and annotation set `om`
(case-insensitive), a well-formed token whose key is not reserved is
appended raw to the attribute buffer; after all tokens, a non-empty buffer
with no `attr` key becomes `map[attr]`, the raw tokens joined by `&`; in
particular decoding `"a=1&b=2&c=3"` with `wantedProps = ["*"]`,
`annotSet = "om"` yields exactly `{attr: "a=1&b=2&c=3"}`. -/
theorem claim6_attribute_bag :
    (∀ (set : String) (props lcProps decodeProps : List String) (st : DecSt)
       (tok key value : String), pySplitStr '=' tok = [key, value] → "*" ∈ props →
       pyLower set = "om" → key ∉ OM_NON_ATTR →
       decodeTokStep set props lcProps decodeProps st tok
         = { st with attrBuf := st.attrBuf ++ [tok] }) ∧
    (∀ st : DecSt, st.attrBuf ≠ [] → pyLookup st.propsMap "attr" = none →
       decodeFinish st
         = st.propsMap ++ [("attr", ⟨joinSep '&' (st.attrBuf.map String.data)⟩)]) ∧
    GetAQProperties "om" "a=1&b=2&c=3" ["*"] [] [] = [("attr", "a=1&b=2&c=3")] := by
  refine ⟨?_, ?_, by decide⟩
  · intro set props lc dec st tok key value hsp hw hom hres
    exact decodeTokStep_routes hsp hw hom hres st
  · intro st hbuf hattr
    exact decodeFinish_appends hbuf hattr

/-- C6, witness: one routed token on a non-trivial state, with the set name
given in upper case. -/
theorem claim6_witness :
    pySplitStr '=' "x=1" = ["x", "1"] ∧
    decodeTokStep "OM" ["*"] [] [] ⟨[("k", "v")], ["p=2"]⟩ "x=1"
      = ⟨[("k", "v")], ["p=2", "x=1"]⟩ := by
  refine ⟨by decide, ?_⟩
  have h := claim6_attribute_bag.1 "OM" ["*"] [] [] ⟨[("k", "v")], ["p=2"]⟩ "x=1" "x" "1"
    (by decide) (by decide) (by decide) (by decide)
  simpa using h

/-- C7, counterexample: when the cached copy exists but reading it fails,
the error propagates out of the hydrator instead of being caught — the
claim's "every read failure is caught" is false for the cache read. -/
theorem claim7_cex :
    resolveDocText ⟨true, .error "boom", .ok "text!", .ok ()⟩ = .error "boom" ∧
    HydrateTextFS ⟨true, .error "boom", .ok "text!", .ok ()⟩ 0 1 (some [("a", "b")]) true
      = .error "boom" ∧
    (Except.error "boom" : Except String (Option PyDict)) ≠ .ok (some [("a", "b")]) := by
  refine ⟨rfl, rfl, by decide⟩

/-- C7 (amended): a failure reading the original text (or writing its cache
copy) is caught and resolves the document text to the empty string, making
the call return `properties` unchanged; likewise the call returns
`properties` unchanged whenever the text is empty or a `text` key already
exists.  (A failure reading an existing cached copy, by contrast,
propagates.) -/
theorem claim7_short_circuit :
    (∀ (cr : Except String String) (e : String) (cw : Except String Unit)
       (startOffset endOffset : Int) (props : Option PyDict) (ex : Bool),
       HydrateTextFS ⟨false, cr, .error e, cw⟩ startOffset endOffset props ex = .ok props) ∧
    (∀ (startOffset endOffset : Int) (props : Option PyDict) (ex : Bool),
       HydrateTextCore "" startOffset endOffset props ex = .ok props) ∧
    (∀ (docText : String) (startOffset endOffset : Int) (m : PyDict) (ex : Bool),
       (pyLookup m "text").isSome →
       HydrateTextCore docText startOffset endOffset (some m) ex = .ok (some m)) := by
  refine ⟨?_, ?_, ?_⟩
  · intro cr e cw startOffset endOffset props ex
    show HydrateTextCore "" startOffset endOffset props ex = .ok props
    unfold HydrateTextCore
    rw [if_pos (Or.inl rfl)]
  · intro startOffset endOffset props ex
    unfold HydrateTextCore
    rw [if_pos (Or.inl rfl)]
  · intro docText startOffset endOffset m ex h
    unfold HydrateTextCore
    rw [if_pos (Or.inr (by simp [hasKey, h]))]

/-- C7, witness: a failed source read is a no-op; an existing `text` key is
a no-op. -/
theorem claim7_witness :
    HydrateTextFS ⟨false, .ok "zzz", .error "io", .ok ()⟩ 0 5 (some [("k", "v")]) true
      = .ok (some [("k", "v")]) ∧
    (pyLookup [("text", "t")] "text").isSome = true ∧
    HydrateTextCore "doc" 0 3 (some [("text", "t")]) true = .ok (some [("text", "t")]) :=
  ⟨claim7_short_circuit.1 (.ok "zzz") "io" (.ok ()) 0 5 (some [("k", "v")]) true,
   by decide,
   claim7_short_circuit.2.2 "doc" 0 3 [("text", "t")] true (by decide)⟩

/-- C8: with non-empty document text, no `text` key and a malformed
non-empty `excludes` value, exclusion parsing raises — an entry with fewer
than five comma-separated fields raises `IndexError`, and a non-integer in
an integer field raises `ValueError` — rather than degrading silently. -/
theorem claim8_parse_errors :
    parseExcludes "0,a,b,1" = .error "IndexError" ∧
    parseExcludes "x,a,b,1,2" = .error "ValueError" ∧
    HydrateTextCore "doc" 0 3 (some [("excludes", "0,a,b,1")]) true
      = .error "IndexError" ∧
    HydrateTextCore "doc" 0 3 (some [("excludes", "x,a,b,1,2")]) true
      = .error "ValueError" := by
  refine ⟨by decide, by decide, by decide, by decide⟩

/-- C9: the encoder returns `None` exactly on a `None` mapping; a non-null
mapping with no qualifying key yields the empty string, not `None`. -/
theorem claim9_encoder_null :
    (∀ P E : List String, GetCATProperties none P E = none) ∧
    (∀ (m : PyDict) (P E : List String), GetCATProperties (some m) P E ≠ none) ∧
    (∀ (m : PyDict) (P E : List String),
       (∀ kv ∈ m, ¬ ("*" ∈ P ∨ kv.1 ∈ P)) → GetCATProperties (some m) P E = some "") := by
  refine ⟨fun P E => rfl, fun m P E => by simp [GetCATProperties], ?_⟩
  intro m P E h
  have hnil : m.filterMap (encTok P E) = [] := by
    rw [List.filterMap_eq_nil_iff]
    intro kv hkv
    unfold encTok
    rw [if_neg (h kv hkv)]
  show some (⟨joinSep '&' (m.filterMap (encTok P E))⟩ : String) = some ""
  rw [hnil]
  rfl

/-- C9, witness: a mapping whose single key does not qualify encodes to the
empty string. -/
theorem claim9_witness :
    (∀ kv ∈ ([("a", "1")] : PyDict), ¬ ("*" ∈ ["z"] ∨ kv.1 ∈ ["z"])) ∧
    GetCATProperties (some [("a", "1")]) ["z"] [] = some "" :=
  ⟨by decide, claim9_encoder_null.2.2 [("a", "1")] ["z"] [] (by decide)⟩

/-- C10: when a kept key is placed directly in the map by several
well-formed tokens, the decoder's returned mapping binds it to the
processed value of the last such occurrence. -/
theorem claim10_last_wins (set : String) (props lcProps decodeProps : List String)
    (other k v t : String) (l1 l2 : List String)
    (hprops : props ≠ [])
    (htoks : pySplitStr '&' other = l1 ++ t :: l2)
    (hfirst : ∃ t0 ∈ l1, ∃ v0, placesDirectly set props lcProps decodeProps t0 = some (k, v0))
    (hplace : placesDirectly set props lcProps decodeProps t = some (k, v))
    (hlast : ∀ t' ∈ l2, ∀ v',
      placesDirectly set props lcProps decodeProps t' ≠ some (k, v')) :
    pyLookup (GetAQProperties set other props lcProps decodeProps) k = some v := by
  unfold GetAQProperties
  rw [if_pos (by
    cases props with
    | nil => exact absurd rfl hprops
    | cons a l => simp)]
  rw [htoks, List.foldl_append, List.foldl_cons]
  apply decodeFinish_lookup_preserved
  apply foldl_decode_lookup_preserved l2 _ ?_ hlast
  rw [decodeTokStep_places hplace]
  exact pyLookup_pyDictInsert_self _ _ _

/-- C10, witness: `"a=1&a=2"` binds `a` to `"2"`. -/
theorem claim10_witness :
    pySplitStr '&' "a=1&a=2" = ["a=1"] ++ "a=2" :: [] ∧
    placesDirectly "s" ["a"] [] [] "a=2" = some ("a", "2") ∧
    pyLookup (GetAQProperties "s" "a=1&a=2" ["a"] [] []) "a" = some "2" := by
  refine ⟨by decide, by decide, ?_⟩
  exact claim10_last_wins "s" ["a"] [] [] "a=1&a=2" "a" "2" "a=2" ["a=1"] []
    (by simp) (by decide) ⟨"a=1", List.mem_cons_self _ _, "1", by decide⟩ (by decide)
    (by intro t' ht'; simp at ht')

end AQ
